import Mathlib

/-!
# Verification of the Dorky scraper's normalization/dedupe/retry logic

Shallow embedding of `dorky.py`. Strings are modelled as `List Char`
(wrapped in `String` at the public boundary). The Python standard library
routines the script leans on (`urllib.parse.urlparse`, `parse_qsl`,
`unquote`, `str.split`, `str.lower`) are embedded following CPython's
algorithms; percent-decoding is modelled at the single-byte level (a
multi-byte UTF-8 escape sequence decodes to the individual byte values
rather than one code point), and `str.lower`/`str.isalnum` are modelled on
their ASCII behaviour. The HTML parser (BeautifulSoup) is out of scope and
is modelled by handing `extract_serp_urls` the list of anchor `href`
attribute values it would find, in document order. The browser page object
is modelled by an explicit per-attempt environment record.
-/

namespace Dorky

/-! ## Generic string helpers (Python `str` operations) -/

/-- Python `s.startswith(pat)` on character lists (pattern first). -/
def startsWithL : List Char → List Char → Bool
  | [], _ => true
  | _ :: _, [] => false
  | p :: ps, c :: cs => p = c && startsWithL ps cs

/-- Python `pat in s` (substring containment), scanning left to right. -/
def containsSub (s pat : List Char) : Bool :=
  if startsWithL pat s then true
  else
    match s with
    | [] => false
    | _ :: rest => containsSub rest pat

/-- Python `s.lower()` restricted to its ASCII action. -/
def lowerL (s : List Char) : List Char := s.map Char.toLower

/-- Python `s.split(sep)` for a one-character separator: `"".split(c) = [""]`. -/
def pySplitChar (sep : Char) : List Char → List (List Char)
  | [] => [[]]
  | c :: rest =>
    if c = sep then [] :: pySplitChar sep rest
    else
      match pySplitChar sep rest with
      | [] => [[c]]
      | g :: gs => (c :: g) :: gs

/-- Split at the first occurrence of `sep`, dropping it: models
`s.split(sep, 1)`. When `sep` is absent this returns `(s, [])`, which
coincides with Python's behaviour of leaving the second component empty. -/
def splitFirst (sep : Char) (l : List Char) : List Char × List Char :=
  (l.takeWhile (· ≠ sep), (l.dropWhile (· ≠ sep)).drop 1)

/-- Hexadecimal digit value, as `urllib.parse.unquote` accepts. -/
def hexVal (c : Char) : Option Nat :=
  if '0' ≤ c ∧ c ≤ '9' then some (c.toNat - '0'.toNat)
  else if 'a' ≤ c ∧ c ≤ 'f' then some (c.toNat - 'a'.toNat + 10)
  else if 'A' ≤ c ∧ c ≤ 'F' then some (c.toNat - 'A'.toNat + 10)
  else none

/-- Python `urllib.parse.unquote`, modelled byte-wise: each valid `%XX`
escape becomes the character of that byte value; invalid escapes are kept
verbatim. (CPython additionally UTF-8-decodes runs of bytes ≥ 0x80; no
claim exercises that case.) -/
def pyUnquote : List Char → List Char
  | [] => []
  | '%' :: a :: b :: rest =>
    match hexVal a, hexVal b with
    | some x, some y => Char.ofNat (16 * x + y) :: pyUnquote rest
    | _, _ => '%' :: pyUnquote (a :: b :: rest)
  | c :: rest => c :: pyUnquote rest

/-- The `.replace('+', ' ')` step `parse_qsl` applies before unquoting. -/
def plusToSpace (l : List Char) : List Char :=
  l.map fun c => if c = '+' then ' ' else c

/-! ## `urllib.parse.urlparse` (CPython ≥ 3.11 algorithm) -/

/-- Result of `urlparse` (the `params` component is split off the path but
never read by the script, so it is not retained). -/
structure UrlParts where
  scheme : List Char
  netloc : List Char
  path : List Char
  query : List Char
  fragment : List Char
deriving DecidableEq

/-- WHATWG C0-control-or-space class stripped from the front of a URL. -/
def c0OrSpace (c : Char) : Bool := c.toNat ≤ 32

/-- The unsafe bytes CPython removes from anywhere in the URL. -/
def tabCrLf (c : Char) : Bool := c = '\t' || c = '\r' || c = '\n'

/-- Characters allowed in a scheme (`scheme_chars` in CPython). -/
def scheme_char (c : Char) : Bool :=
  c.isAlpha || c.isDigit || c = '+' || c = '-' || c = '.'

/-- Scheme recognition of `urlsplit`: a scheme is split off when a `:`
occurs at position > 0, the first character is an ASCII letter, and every
character before the `:` is a scheme character. -/
def splitScheme (url : List Char) : List Char × List Char :=
  let pre := url.takeWhile (· ≠ ':')
  if pre.length < url.length ∧ pre ≠ [] ∧ (pre.headD 'a').isAlpha = true ∧
      pre.all scheme_char = true then
    (lowerL pre, url.drop (pre.length + 1))
  else ([], url)

/-- A character ending the netloc in `_splitnetloc`. -/
def netlocEnd (c : Char) : Bool := c = '/' || c = '?' || c = '#'

/-- `_splitnetloc`: after a leading `//`, the netloc runs to the first of
`/?#`; the delimiter stays with the remainder. -/
def splitNetloc : List Char → List Char × List Char
  | '/' :: '/' :: r => (r.takeWhile (fun c => !netlocEnd c), r.dropWhile (fun c => !netlocEnd c))
  | l => ([], l)

/-- Schemes for which `urlparse` splits `;params` off the path
(`uses_params` in CPython). -/
def uses_params : List (List Char) :=
  [[], "ftp".data, "hdl".data, "prospero".data, "http".data, "imap".data,
   "https".data, "shttp".data, "rtsp".data, "rtspu".data, "sip".data,
   "sips".data, "mms".data, "sftp".data, "tel".data]

/-- `_splitparams`: cut the path at the first `;` occurring in the segment
after the last `/` (or anywhere, when there is no `/`). -/
def _splitparams (url : List Char) : List Char × List Char :=
  if url.any (· = '/') then
    let tail := (url.reverse.takeWhile (· ≠ '/')).reverse
    let head := url.take (url.length - tail.length)
    if tail.any (· = ';') then
      (head ++ tail.takeWhile (· ≠ ';'), (tail.dropWhile (· ≠ ';')).drop 1)
    else (url, [])
  else
    (url.takeWhile (· ≠ ';'), (url.dropWhile (· ≠ ';')).drop 1)

/-- `urllib.parse.urlparse`. Returns `none` where CPython raises
`ValueError` (unbalanced IPv6 brackets in the netloc); the repository wraps
every call in `try/except`, and the model surfaces that through `Option`.
The NFKC netloc check, which can only fire on exotic non-ASCII input, is
not modelled. -/
def urlparse (u : List Char) : Option UrlParts :=
  let url0 := (u.dropWhile c0OrSpace).filter (fun c => !tabCrLf c)
  let sp := splitScheme url0
  let scheme := sp.1
  let np := splitNetloc sp.2
  let netloc := np.1
  if (netloc.any (· = '[') && !netloc.any (· = ']')) ||
     (netloc.any (· = ']') && !netloc.any (· = '[')) then none
  else
    let fs := splitFirst '#' np.2
    let qs := splitFirst '?' fs.1
    let path :=
      if scheme ∈ uses_params ∧ qs.1.any (· = ';') then (_splitparams qs.1).1
      else qs.1
    some ⟨scheme, netloc, path, qs.2, fs.2⟩

/-- `urllib.parse.parse_qsl(qs, keep_blank_values=True)`: split on `&`,
skip empty chunks, split each chunk at the first `=` (absent `=` gives a
blank value), and `+`/percent-decode names and values. -/
def parse_qsl (qs : List Char) : List (List Char × List Char) :=
  if qs = [] then []
  else
    (pySplitChar '&' qs).filterMap fun nv =>
      if nv = [] then none
      else
        let pre := nv.takeWhile (· ≠ '=')
        if pre.length < nv.length then
          some (pyUnquote (plusToSpace pre),
                pyUnquote (plusToSpace (nv.drop (pre.length + 1))))
        else
          some (pyUnquote (plusToSpace nv), [])

/-! ## The repository's filtering and normalization helpers -/

/-- `TRACKING_PREFIXES` from dorky.py. -/
def TRACKING_PREFIXES : List (List Char) :=
  ["utm_".data, "fbclid".data, "gclid".data, "icid".data, "mc_eid".data]

/-- The dropped-parameter test: the lowercased name starts with one of the
tracking markers (the name passed in is already lowercased by the caller,
exactly as in the script). -/
def isTrackingName (k : List Char) : Bool :=
  TRACKING_PREFIXES.any fun pref => startsWithL pref k

/-- `is_google_host` from dorky.py (the `host` argument is a string; the
`not host` falsy test is the emptiness test). -/
def is_google_host (host : String) : Bool :=
  if host.data = [] then false
  else
    let h := lowerL host.data
    containsSub h "google.".data || containsSub h "googleusercontent.com".data ||
      containsSub h "youtube.com".data

/-- Python `sorted` on the parameter names: lexicographic by code point. -/
def lexLe : List Char → List Char → Bool
  | [], _ => true
  | _ :: _, [] => false
  | a :: as, b :: bs => a.toNat < b.toNat || (a.toNat = b.toNat && lexLe as bs)

/-- Insertion into a sorted list, for the model of `sorted`. -/
def insertSorted (x : List Char) : List (List Char) → List (List Char)
  | [] => [x]
  | y :: ys => if lexLe x y then x :: y :: ys else y :: insertSorted x ys

/-- `sorted(l)` (insertion sort; agrees with Python's sort on the
duplicate-free lists it is applied to). -/
def sortNames : List (List Char) → List (List Char)
  | [] => []
  | x :: xs => insertSorted x (sortNames xs)

/-- The `seen_k` accumulation loop of `normalize_url_for_dedupe`:
deduplicate preserving first occurrence. -/
def pyDedup (keys : List (List Char)) : List (List Char) :=
  keys.foldl (fun acc k => if k ∈ acc then acc else acc ++ [k]) []

/-- `"&".join(f"{k}=" for k in ks)`. -/
def joinAmp : List (List Char) → List Char
  | [] => []
  | [k] => k ++ ['=']
  | k :: ks => k ++ '=' :: '&' :: joinAmp ks

/-- The non-tracking lowercased parameter names of `u`, in query order,
deduplicated — the `seen_k` list inside `normalize_url_for_dedupe`. -/
def keptNames (u : String) : List (List Char) :=
  match urlparse u.data with
  | none => []
  | some p =>
    pyDedup (((parse_qsl p.query).map fun kv => lowerL kv.1).filter
      fun k => !isTrackingName k)

/-- `normalize_url_for_dedupe` from dorky.py. -/
def normalize_url_for_dedupe (u : String) : String :=
  match urlparse u.data with
  | none => u
  | some p =>
    let scheme := lowerL (if p.scheme = [] then "http".data else p.scheme)
    let host := lowerL p.netloc
    let path := if p.path = [] then "/".data else p.path
    let seen_k :=
      pyDedup (((parse_qsl p.query).map fun kv => lowerL kv.1).filter
        fun k => !isTrackingName k)
    if seen_k = [] then ⟨scheme ++ "://".data ++ host ++ path⟩
    else ⟨scheme ++ "://".data ++ host ++ path ++ "?".data ++ joinAmp (sortNames seen_k)⟩

/-- `sanitize_filename` from dorky.py (`isalnum` on its ASCII behaviour). -/
def sanitize_filename (s : String) : String :=
  ⟨(s.data.map fun c =>
      if c.isAlphanum || c = '-' || c = '_' || c = '.' then c else '_').take 200⟩

/-! ## `extract_serp_urls` (the HTML parser is modelled by the list of
anchor `href` values it finds, in document order) -/

/-- Split at the first occurrence of the substring `sep`, dropping it. -/
def splitFirstSub (sep : List Char) : List Char → Option (List Char × List Char)
  | [] => if sep = [] then some ([], []) else none
  | c :: rest =>
    if startsWithL sep (c :: rest) then some ([], (c :: rest).drop sep.length)
    else
      match splitFirstSub sep rest with
      | some pq => some (c :: pq.1, pq.2)
      | none => none

/-- Fuelled worker for `pySplitSub`; one unit of fuel per emitted piece
(a nonempty separator consumes at least one character per piece, so
`s.length + 1` units always suffice). -/
def pySplitSubAux (sep : List Char) : Nat → List Char → List (List Char)
  | 0, s => [s]
  | n + 1, s =>
    match splitFirstSub sep s with
    | none => [s]
    | some pq => pq.1 :: pySplitSubAux sep n pq.2

/-- Python `s.split(sep)` for a nonempty substring separator. -/
def pySplitSub (sep s : List Char) : List (List Char) :=
  pySplitSubAux sep (s.length + 1) s

/-- The first-seen deduplication loop at the end of `extract_serp_urls`
(`seen` plays the Python set, `out` the emitted list). -/
def dedupLoop : List String → List String → List String → List String
  | _, out, [] => out
  | seen, out, u :: rest =>
    if u ∈ seen then dedupLoop seen out rest
    else dedupLoop (u :: seen) (out ++ [u]) rest

/-- `extract_serp_urls` from dorky.py, over the anchor hrefs of the page. -/
def extract_serp_urls (hrefs : List String) : List String :=
  let results := hrefs.foldl (fun acc href =>
    if startsWithL "/url?q=".data href.data then
      acc ++ [⟨pyUnquote ((pySplitChar '&'
        ((pySplitSub "/url?q=".data href.data).getD 1 [])).headD [])⟩]
    else acc) []
  let results2 :=
    if results = [] then
      hrefs.foldl (fun acc href =>
        if startsWithL "http://".data href.data || startsWithL "https://".data href.data
        then acc ++ [href] else acc) []
    else results
  dedupLoop [] [] results2

/-! ## The dedupe/output loop of `main` -/

/-- The mutable state of `main`'s inner loop: the process-lifetime
`seen_normalized` set and the sequence of raw URLs appended to the output
file. -/
structure DState where
  seen : List String
  out : List String
deriving DecidableEq

def initState : DState := ⟨[], []⟩

/-- The google-skip condition of `main`: parse the URL, lowercase the
netloc, and test `is_google_host`; a parse failure falls through to
normalization (no skip), as the `except` branch does. -/
def host_check (u : String) : Bool :=
  match urlparse u.data with
  | some p => is_google_host ⟨lowerL p.netloc⟩
  | none => false

/-- One iteration of `for u in urls:` in `main`. -/
def process_url (st : DState) (u : String) : DState :=
  if host_check u then st
  else
    let key := normalize_url_for_dedupe u
    if key ∈ st.seen then st
    else ⟨key :: st.seen, st.out ++ [u]⟩

/-- Processing one page's batch of extracted URLs, in extraction order. -/
def process_urls (st : DState) (us : List String) : DState :=
  us.foldl process_url st

/-! ## `fetch_single_page` and the pagination loop of `main` -/

/-- What the outside world does on one attempt of `fetch_single_page`:
whether `page.goto` raises (and the `last_err` string recorded for it),
what `looks_like_captcha` reports, whether the operator hits Ctrl-C at the
manual-solve prompt, what `wait_for_serp_after_manual_solve` returns, and
the page content afterwards (`html` for the no-results test, `hrefs` for
what the HTML parser finds in it). -/
structure AttemptEnv where
  gotoErr : Option String
  captcha : Bool
  userInterrupt : Bool
  solved : Bool
  html : String
  hrefs : List String

/-- The `"did not match any documents" in html.lower()` test. -/
def phraseNoDocs (html : String) : Bool :=
  containsSub (lowerL html.data) "did not match any documents".data

/-- The `for attempt in range(1, tries+1)` body of `fetch_single_page`;
one `AttemptEnv` per remaining attempt, threading `last_err`. -/
def attemptLoop (headful : Bool) : List AttemptEnv → Option String →
    List String × Option String
  | [], lastErr => ([], lastErr)
  | env :: rest, lastErr =>
    match env.gotoErr with
    | some e => attemptLoop headful rest (some e)
    | none =>
      if env.captcha && headful && env.userInterrupt then ([], some "user-abort")
      else if env.captcha && headful && !env.solved then
        attemptLoop headful rest (some "captcha-still")
      else if env.captcha && !headful then
        attemptLoop headful rest (some "captcha-headless")
      else
        if phraseNoDocs env.html then ([], some "no-results")
        else
          let urls := extract_serp_urls env.hrefs
          if urls = [] then attemptLoop headful rest (some "no-urls")
          else (urls, none)

/-- `fetch_single_page`, with one environment per configured attempt. -/
def fetch_single_page (headful : Bool) (envs : List AttemptEnv) :
    List String × Option String :=
  attemptLoop headful envs none

/-- The `for pnum in range(pages)` loop of `main`, recording which page
numbers are fetched; fetching stops (`break`) after a page whose reason is
`"no-results"`. -/
def pageLoop (fetch : Nat → List String × Option String) : Nat → Nat → List Nat
  | _, 0 => []
  | pnum, n + 1 =>
    if (fetch pnum).2 = some "no-results" then [pnum]
    else pnum :: pageLoop fetch (pnum + 1) n

/-- The page numbers fetched for one query under configured `pages`. -/
def pagesFetched (fetch : Nat → List String × Option String) (pages : Nat) :
    List Nat :=
  pageLoop fetch 0 pages

/-! ## Specification-side definitions (worded from the spec, for the
claims that compare the code against the spec's phrasing) -/

/-- `pat` occurs as a substring of `s` (spec side of the Google-host
filter claim). -/
def SubstrOf (pat s : List Char) : Prop := ∃ a b, s = a ++ pat ++ b

/-- Spec side of the extractor: "ordered list of distinct URLs keeping
first occurrences" (later occurrences of an already-kept URL are filtered
away). -/
def dedupeFirst : List String → List String
  | [] => []
  | u :: rest => u :: (dedupeFirst rest).filter (· ≠ u)

/-- Everything before the first occurrence of `sep` (all of `s` when `sep`
does not occur). -/
def takeUntilSub (sep s : List Char) : List Char :=
  match splitFirstSub sep s with
  | none => s
  | some pq => pq.1

/-- Spec side (amended) of the primary extraction: after the leading
`/url?q=`, take the segment up to the next occurrence of `/url?q=` (to the
end when there is none), truncate at the first `&`, and URL-decode. -/
def redirectTarget (href : List Char) : List Char :=
  pyUnquote ((takeUntilSub "/url?q=".data (href.drop 7)).takeWhile (· ≠ '&'))

/-- Spec side as the claim literally states it: the substring after
`/url?q=` up to the next `&`, URL-decoded. -/
def claimRedirectTarget (href : List Char) : List Char :=
  pyUnquote ((href.drop 7).takeWhile (· ≠ '&'))

/-- The primary strategy, per the spec's wording. -/
def specPrimary (hrefs : List String) : List String :=
  hrefs.filterMap fun h =>
    if startsWithL "/url?q=".data h.data then some ⟨redirectTarget h.data⟩ else none

/-- The primary strategy exactly as the claim words it. -/
def claimPrimary (hrefs : List String) : List String :=
  hrefs.filterMap fun h =>
    if startsWithL "/url?q=".data h.data then some ⟨claimRedirectTarget h.data⟩ else none

/-- The fallback strategy: anchor hrefs beginning with `http://` or
`https://`. -/
def specFallback (hrefs : List String) : List String :=
  hrefs.filter fun h =>
    startsWithL "http://".data h.data || startsWithL "https://".data h.data

/-- The extractor as the claim literally describes it. -/
def claimExtract (hrefs : List String) : List String :=
  dedupeFirst (if claimPrimary hrefs = [] then specFallback hrefs else claimPrimary hrefs)

/-- The normalization key as the claim literally describes it for C9:
scheme defaulted and lowercased, host lowercased, the path kept verbatim
exactly as parsed — also when it is empty. -/
def claimKeyVerbatimPath (u : String) : Option String :=
  (urlparse u.data).map fun p =>
    let scheme := lowerL (if p.scheme = [] then "http".data else p.scheme)
    let host := lowerL p.netloc
    let seen_k :=
      pyDedup (((parse_qsl p.query).map fun kv => lowerL kv.1).filter
        fun k => !isTrackingName k)
    if seen_k = [] then ⟨scheme ++ "://".data ++ host ++ p.path⟩
    else ⟨scheme ++ "://".data ++ host ++ p.path ++ "?".data ++ joinAmp (sortNames seen_k)⟩

/-- The parsed-level reading of "two URL strings that differ only in the
values of tracking parameters": same scheme, netloc and path, and
pointwise-identical query pairs except that values of tracking-named
parameters may differ. -/
def qslTrackingOnly : List (List Char × List Char) → List (List Char × List Char) → Bool
  | [], [] => true
  | (n₁, v₁) :: r₁, (n₂, v₂) :: r₂ =>
    n₁ == n₂ && (v₁ == v₂ || isTrackingName (lowerL n₁)) && qslTrackingOnly r₁ r₂
  | _, _ => false

def differOnlyTrackingValues (u₁ u₂ : String) : Bool :=
  match urlparse u₁.data, urlparse u₂.data with
  | some p, some q =>
    p.scheme == q.scheme && p.netloc == q.netloc && p.path == q.path &&
      qslTrackingOnly (parse_qsl p.query) (parse_qsl q.query)
  | _, _ => false

/-- Parameter names that survive the round trip through the key unchanged:
free of the separator, escape and stripped characters. -/
def plainName (n : List Char) : Bool :=
  n.all fun c => !(c = '&' || c = '=' || c = '%' || c = '+' || c = '#' ||
    c = '\t' || c = '\r' || c = '\n')

/-- The input parses and has a nonempty network location. -/
def parsesWithHost (u : String) : Bool :=
  match urlparse u.data with
  | some p => !p.netloc.isEmpty
  | none => false

/-- The state invariant the output loop maintains: every written URL's key
is in the seen-set, and no two written URLs share a key. -/
def StInv (st : DState) : Prop :=
  (∀ u ∈ st.out, normalize_url_for_dedupe u ∈ st.seen) ∧
  List.Pairwise (fun a b => normalize_url_for_dedupe a ≠ normalize_url_for_dedupe b) st.out

/-! # Theorems -/

/-! ## Substring containment agrees with its existential description -/

theorem startsWithL_iff {p l : List Char} :
    startsWithL p l = true ↔ ∃ t, l = p ++ t := by
  induction p generalizing l with
  | nil => simp [startsWithL]
  | cons a as ih =>
    cases l with
    | nil =>
      constructor
      · intro h; exact absurd h (by simp [startsWithL])
      · rintro ⟨t, ht⟩; exact absurd ht (by simp)
    | cons b bs =>
      simp only [startsWithL, Bool.and_eq_true, decide_eq_true_eq, ih,
        List.cons_append, List.cons.injEq]
      constructor
      · rintro ⟨rfl, t, rfl⟩
        exact ⟨t, rfl, rfl⟩
      · rintro ⟨t, rfl, rfl⟩
        exact ⟨rfl, t, rfl⟩

theorem containsSub_iff {s pat : List Char} :
    containsSub s pat = true ↔ SubstrOf pat s := by
  induction s with
  | nil =>
    constructor
    · intro h
      rw [containsSub] at h
      by_cases hs : startsWithL pat [] = true
      · rcases startsWithL_iff.mp hs with ⟨t, ht⟩
        exact ⟨[], t, by simpa using ht⟩
      · rw [if_neg hs] at h
        exact absurd h (by simp)
    · rintro ⟨a, b, hab⟩
      have h2 := hab.symm
      simp only [List.append_eq_nil] at h2
      rw [h2.1.2]
      decide
  | cons c rest ih =>
    rw [containsSub]
    by_cases hs : startsWithL pat (c :: rest) = true
    · rw [if_pos hs]
      rcases startsWithL_iff.mp hs with ⟨t, ht⟩
      simp only [true_iff]
      exact ⟨[], t, by simpa using ht⟩
    · rw [if_neg hs]
      rw [ih]
      constructor
      · rintro ⟨a, b, hab⟩
        exact ⟨c :: a, b, by rw [hab]; rfl⟩
      · rintro ⟨a, b, hab⟩
        cases a with
        | nil =>
          exact absurd (startsWithL_iff.mpr ⟨b, by simpa using hab⟩) hs
        | cons x a2 =>
          refine ⟨a2, b, ?_⟩
          simp only [List.cons_append] at hab
          exact (List.cons.inj hab).2

theorem SubstrOf_nil_imp {pat : List Char} (h : SubstrOf pat []) : pat = [] := by
  rcases h with ⟨a, b, hab⟩
  have h2 := hab.symm
  simp only [List.append_eq_nil] at h2
  exact h2.1.2

/-! ## C6: the Google-host filter -/

/-- C6: `is_google_host` returns `true` exactly when the lowercased host
contains `google.`, `googleusercontent.com`, or `youtube.com` as a
substring; the listed hosts classify as stated. -/
theorem google_host_filter_spec :
    (∀ h : String, is_google_host h = true ↔
      (SubstrOf "google.".data (lowerL h.data) ∨
       SubstrOf "googleusercontent.com".data (lowerL h.data) ∨
       SubstrOf "youtube.com".data (lowerL h.data))) ∧
    is_google_host "www.google.com" = true ∧
    is_google_host "mail.google.com" = true ∧
    is_google_host "youtube.com" = true ∧
    is_google_host "lh3.googleusercontent.com" = true ∧
    is_google_host "example.com" = false := by
  refine ⟨fun h => ?_, by decide, by decide, by decide, by decide, by decide⟩
  rw [is_google_host]
  by_cases hd : h.data = []
  · rw [if_pos hd, hd]
    constructor
    · intro hfalse; exact absurd hfalse (by simp)
    · intro habs
      rcases habs with h1 | h2 | h3
      · exact absurd (SubstrOf_nil_imp (by simpa [lowerL] using h1)) (by decide)
      · exact absurd (SubstrOf_nil_imp (by simpa [lowerL] using h2)) (by decide)
      · exact absurd (SubstrOf_nil_imp (by simpa [lowerL] using h3)) (by decide)
  · rw [if_neg hd]
    simp only [Bool.or_eq_true, containsSub_iff, or_assoc]

/-! ## C2: the worked normalization example -/

/-- C2: `normalize_url_for_dedupe` maps
`https://example.com/page?b=2&a=1#frag` to exactly
`https://example.com/page?a=&b=` — fragment stripped, values dropped,
names sorted with blank values. -/
theorem normalize_key_example :
    normalize_url_for_dedupe "https://example.com/page?b=2&a=1#frag" =
      "https://example.com/page?a=&b=" := by decide

/-! ## C10: sanitize_filename -/

/-- C10: `sanitize_filename` keeps at most 200 characters, all output
characters are alphanumeric or `-`/`_`/`.`, and the output is exactly the
200-character prefix of the input with every other character replaced by
`_`. -/
theorem sanitize_filename_spec :
    ∀ s : String,
      (sanitize_filename s).length ≤ 200 ∧
      (∀ c ∈ (sanitize_filename s).data,
        (c.isAlphanum || c = '-' || c = '_' || c = '.') = true) ∧
      (sanitize_filename s).data =
        (s.data.take 200).map
          (fun c => if c.isAlphanum || c = '-' || c = '_' || c = '.' then c else '_') := by
  intro s
  refine ⟨?_, ?_, ?_⟩
  · show ((s.data.map _).take 200).length ≤ 200
    rw [List.length_take]
    exact Nat.min_le_left _ _
  · intro c hc
    have hc2 : c ∈ s.data.map
        (fun c => if c.isAlphanum || c = '-' || c = '_' || c = '.' then c else '_') :=
      List.mem_of_mem_take hc
    rcases List.mem_map.mp hc2 with ⟨a, _, rfl⟩
    by_cases hgood : (a.isAlphanum || a = '-' || a = '_' || a = '.') = true
    · rw [if_pos hgood]; exact hgood
    · rw [if_neg hgood]; decide
  · show (s.data.map _).take 200 = _
    rw [List.map_take]

/-! ## C5: the SERP extractor -/

theorem pySplitChar_ne_nil (sep : Char) (l : List Char) : pySplitChar sep l ≠ [] := by
  cases l with
  | nil => simp [pySplitChar]
  | cons c rest =>
    rw [pySplitChar]
    by_cases hc : c = sep
    · simp [hc]
    · rw [if_neg hc]
      cases pySplitChar sep rest <;> simp

theorem pySplitChar_headD (sep : Char) (l : List Char) :
    (pySplitChar sep l).headD [] = l.takeWhile (· ≠ sep) := by
  induction l with
  | nil => rfl
  | cons c rest ih =>
    rw [pySplitChar]
    by_cases hc : c = sep
    · subst hc
      simp [List.takeWhile_cons]
    · rw [if_neg hc]
      cases hrec : pySplitChar sep rest with
      | nil => exact absurd hrec (pySplitChar_ne_nil sep rest)
      | cons g gs =>
        rw [hrec] at ih
        simp only [List.headD_cons] at ih ⊢
        rw [List.takeWhile_cons, if_pos (by simpa using hc), ih]

theorem pySplitSubAux_getD_zero (sep : List Char) (n : Nat) (s : List Char) :
    (pySplitSubAux sep (n + 1) s).getD 0 [] = takeUntilSub sep s := by
  rw [pySplitSubAux, takeUntilSub]
  cases splitFirstSub sep s <;> rfl

theorem splitFirstSub_append_self (sep t : List Char) (hsep : sep ≠ []) :
    splitFirstSub sep (sep ++ t) = some ([], t) := by
  cases sep with
  | nil => exact absurd rfl hsep
  | cons s ss =>
    rw [List.cons_append, splitFirstSub,
      if_pos (startsWithL_iff.mpr ⟨t, by simp⟩)]
    simp [List.drop_left]

theorem pySplitSub_getD_one (sep t : List Char) (hsep : sep ≠ []) :
    (pySplitSub sep (sep ++ t)).getD 1 [] = takeUntilSub sep t := by
  rw [pySplitSub]
  have hm : ∃ m, (sep ++ t).length = m + 1 := by
    cases sep with
    | nil => exact absurd rfl hsep
    | cons a as => exact ⟨(as ++ t).length, by simp⟩
  rcases hm with ⟨m, hm⟩
  rw [hm, pySplitSubAux, splitFirstSub_append_self sep t hsep]
  show (pySplitSubAux sep (m + 1) t).getD 0 [] = takeUntilSub sep t
  exact pySplitSubAux_getD_zero sep m t

/-- On hrefs carrying the `/url?q=` marker, the code's
split-index-split-decode pipeline equals the spec-side `redirectTarget`. -/
theorem code_redirect_eq (h : String)
    (hs : startsWithL "/url?q=".data h.data = true) :
    pyUnquote ((pySplitChar '&'
        ((pySplitSub "/url?q=".data h.data).getD 1 [])).headD [])
      = redirectTarget h.data := by
  rcases startsWithL_iff.mp hs with ⟨t, ht⟩
  rw [ht, pySplitSub_getD_one _ _ (by decide), pySplitChar_headD, redirectTarget]
  have hdrop : ("/url?q=".data ++ t).drop 7 = t := by
    rw [show (7 : Nat) = "/url?q=".data.length from by decide]
    exact List.drop_left _ _
  rw [hdrop]

theorem foldl_if_append (c : String → Bool) (v : String → String)
    (l : List String) (acc : List String) :
    l.foldl (fun a h => if c h then a ++ [v h] else a) acc
      = acc ++ l.filterMap (fun h => if c h then some (v h) else none) := by
  induction l generalizing acc with
  | nil => simp
  | cons x xs ih =>
    rw [List.foldl_cons, List.filterMap_cons]
    by_cases hx : c x = true
    · rw [if_pos hx, if_pos hx, ih]
      simp
    · rw [if_neg hx, if_neg hx, ih]

theorem filterMap_ext_mem {α β : Type} (f g : α → Option β) (l : List α)
    (h : ∀ x ∈ l, f x = g x) : l.filterMap f = l.filterMap g := by
  induction l with
  | nil => rfl
  | cons x xs ih =>
    rw [List.filterMap_cons, List.filterMap_cons, h x (by simp),
      ih fun y hy => h y (by simp [hy])]

theorem filterMap_if_eq_filter (c : String → Bool) (l : List String) :
    l.filterMap (fun h => if c h then some h else none) = l.filter c := by
  induction l with
  | nil => rfl
  | cons x xs ih =>
    rw [List.filterMap_cons, List.filter_cons]
    by_cases hx : c x = true
    · rw [if_pos hx, if_pos hx, ih]
    · rw [if_neg hx, if_neg hx, ih]

theorem dedupLoop_spec (l : List String) :
    ∀ (seen out : List String),
      dedupLoop seen out l = out ++ (dedupeFirst l).filter (fun u => u ∉ seen) := by
  induction l with
  | nil => intro seen out; simp [dedupLoop, dedupeFirst]
  | cons u rest ih =>
    intro seen out
    rw [dedupLoop, dedupeFirst]
    by_cases hu : u ∈ seen
    · rw [if_pos hu, ih, List.filter_cons, if_neg (by simpa using hu),
        List.filter_filter]
      refine congrArg (out ++ ·) (List.filter_congr fun x _ => ?_)
      by_cases hx : x = u
      · subst hx
        simp [hu]
      · simp [hx]
    · rw [if_neg hu, ih, List.filter_cons, if_pos (by simpa using hu),
        List.filter_filter]
      simp only [List.append_assoc, List.singleton_append]
      refine congrArg (out ++ ·) (congrArg (u :: ·) (List.filter_congr fun x _ => ?_))
      by_cases hx : x = u
      · subst hx
        simp
      · by_cases hs : x ∈ seen <;> simp [hx, hs, List.mem_cons]

/-- C5, amended: `extract_serp_urls` is the first-occurrence dedup of the
primary strategy (where the extracted target is the segment between the
first and second occurrence of `/url?q=`, truncated at the first `&` and
URL-decoded) or, exactly when the primary strategy yields nothing, of the
plain `http://`/`https://` fallback; the fallback example returns its
single URL. -/
theorem extract_serp_urls_spec :
    (∀ hrefs : List String,
      extract_serp_urls hrefs =
        dedupeFirst (if specPrimary hrefs = [] then specFallback hrefs
                     else specPrimary hrefs)) ∧
    extract_serp_urls ["/foo", "https://plain.example"] = ["https://plain.example"] := by
  refine ⟨fun hrefs => ?_, by decide⟩
  rw [extract_serp_urls]
  have hprim : hrefs.foldl (fun acc href =>
      if startsWithL "/url?q=".data href.data then
        acc ++ [⟨pyUnquote ((pySplitChar '&'
          ((pySplitSub "/url?q=".data href.data).getD 1 [])).headD [])⟩]
      else acc) [] = specPrimary hrefs := by
    rw [foldl_if_append (fun href => startsWithL "/url?q=".data href.data)
      (fun href => ⟨pyUnquote ((pySplitChar '&'
        ((pySplitSub "/url?q=".data href.data).getD 1 [])).headD [])⟩) hrefs []]
    rw [List.nil_append, specPrimary]
    apply filterMap_ext_mem
    intro x _
    by_cases hx : startsWithL "/url?q=".data x.data = true
    · rw [if_pos hx, if_pos hx, code_redirect_eq x hx]
    · rw [if_neg hx, if_neg hx]
  have hfall : hrefs.foldl (fun acc href =>
      if startsWithL "http://".data href.data || startsWithL "https://".data href.data
      then acc ++ [href] else acc) [] = specFallback hrefs := by
    rw [foldl_if_append (fun href =>
        startsWithL "http://".data href.data || startsWithL "https://".data href.data)
      (fun href => href) hrefs []]
    rw [List.nil_append, specFallback]
    exact filterMap_if_eq_filter _ hrefs
  rw [hprim, hfall, dedupLoop_spec]
  simp

/-- C5 counterexample: on an href whose target itself contains a second
`/url?q=`, the code's `split("/url?q=")[1]` stops at that second
occurrence, so the extractor does not return "the substring after
`/url?q=` up to the next `&`, URL-decoded" as the claim states. -/
theorem extract_double_marker_counterexample :
    extract_serp_urls ["/url?q=a/url?q=b&x"] = ["a"] ∧
    claimExtract ["/url?q=a/url?q=b&x"] = ["a/url?q=b"] ∧
    extract_serp_urls ["/url?q=a/url?q=b&x"] ≠ claimExtract ["/url?q=a/url?q=b&x"] := by
  exact ⟨by decide, by decide, by decide⟩

/-! ## C4: tracking-parameter values never reach the key -/

theorem qslTrackingOnly_names {l₁ l₂ : List (List Char × List Char)}
    (h : qslTrackingOnly l₁ l₂ = true) :
    l₁.map (fun kv => lowerL kv.1) = l₂.map (fun kv => lowerL kv.1) := by
  induction l₁ generalizing l₂ with
  | nil =>
    cases l₂ with
    | nil => rfl
    | cons b bs => exact absurd h (by simp [qslTrackingOnly])
  | cons a as ih =>
    cases l₂ with
    | nil => exact absurd h (by simp [qslTrackingOnly])
    | cons b bs =>
      obtain ⟨n₁, v₁⟩ := a
      obtain ⟨n₂, v₂⟩ := b
      rw [qslTrackingOnly] at h
      simp only [Bool.and_eq_true, beq_iff_eq] at h
      rw [List.map_cons, List.map_cons, h.1.1, ih h.2]

/-- C4: two URL strings that parse to the same scheme, netloc and path and
whose query pairs agree except possibly in the values of tracking-named
parameters get the same normalization key. (The fragment may even differ;
it never reaches the key.) -/
theorem tracking_values_ignored (u₁ u₂ : String)
    (h : differOnlyTrackingValues u₁ u₂ = true) :
    normalize_url_for_dedupe u₁ = normalize_url_for_dedupe u₂ := by
  rw [differOnlyTrackingValues] at h
  cases hp : urlparse u₁.data with
  | none => rw [hp] at h; exact absurd h (by simp)
  | some p =>
    cases hq : urlparse u₂.data with
    | none => rw [hp, hq] at h; exact absurd h (by simp)
    | some q =>
      rw [hp, hq] at h
      simp only [Bool.and_eq_true, beq_iff_eq] at h
      obtain ⟨⟨⟨hscheme, hnetloc⟩, hpath⟩, hqsl⟩ := h
      rw [normalize_url_for_dedupe, normalize_url_for_dedupe, hp, hq]
      simp only [hscheme, hnetloc, hpath, qslTrackingOnly_names hqsl]

/-- Witness for C4 at `?utm_source=a` vs `?utm_source=b`. -/
theorem tracking_values_ignored_witness :
    normalize_url_for_dedupe "https://x.example/p?id=7&utm_source=a" =
      normalize_url_for_dedupe "https://x.example/p?id=7&utm_source=b" :=
  tracking_values_ignored _ _ (by decide)

/-! ## C1: the run-wide dedupe invariant -/

theorem process_url_skip {st : DState} {u : String}
    (h : ¬(host_check u = false ∧ normalize_url_for_dedupe u ∉ st.seen)) :
    process_url st u = st := by
  rw [process_url]
  by_cases hg : host_check u = true
  · rw [if_pos hg]
  · have hg2 : host_check u = false := by
      cases hhc : host_check u
      · rfl
      · exact absurd hhc hg
    rw [if_neg (by simp [hg2])]
    by_cases hk : normalize_url_for_dedupe u ∈ st.seen
    · simp only [if_pos hk]
    · exact absurd ⟨hg2, hk⟩ h

theorem process_url_take {st : DState} {u : String}
    (h : host_check u = false ∧ normalize_url_for_dedupe u ∉ st.seen) :
    process_url st u =
      ⟨normalize_url_for_dedupe u :: st.seen, st.out ++ [u]⟩ := by
  rw [process_url, if_neg (by simp [h.1]), if_neg h.2]

theorem process_url_out_iff (st : DState) (u : String) :
    (process_url st u).out = st.out ++ [u] ↔
      (host_check u = false ∧ normalize_url_for_dedupe u ∉ st.seen) := by
  constructor
  · intro hout
    by_contra hc
    rw [process_url_skip hc] at hout
    have := congrArg List.length hout
    simp at this
  · intro hc
    rw [process_url_take hc]

theorem process_urls_join (st : DState) (batches : List (List String)) :
    batches.foldl process_urls st = process_urls st batches.join := by
  induction batches generalizing st with
  | nil => simp [process_urls]
  | cons b bs ih =>
    rw [List.foldl_cons, ih]
    show process_urls (process_urls st b) bs.join = process_urls st (b ++ bs.join)
    rw [process_urls, process_urls, process_urls, List.foldl_append]

theorem process_url_inv {st : DState} (h : StInv st) (u : String) :
    StInv (process_url st u) := by
  by_cases hc : host_check u = false ∧ normalize_url_for_dedupe u ∉ st.seen
  · rw [process_url_take hc]
    constructor
    · intro v hv
      rcases List.mem_append.mp hv with hv | hv
      · exact List.mem_cons_of_mem _ (h.1 v hv)
      · rw [List.mem_singleton.mp hv]
        exact List.mem_cons_self _ _
    · rw [List.pairwise_append]
      refine ⟨h.2, List.pairwise_singleton _ _, ?_⟩
      intro a ha b hb
      rw [List.mem_singleton.mp hb]
      intro heq
      exact hc.2 (heq ▸ h.1 a ha)
  · rw [process_url_skip hc]
    exact h

theorem process_urls_inv {st : DState} (h : StInv st) (us : List String) :
    StInv (process_urls st us) := by
  induction us generalizing st with
  | nil => exact h
  | cons u rest ih =>
    rw [process_urls, List.foldl_cons]
    exact ih (process_url_inv h u)

/-- C1: in the output loop, a raw URL is appended exactly when it is not a
Google host and its key is unseen; the key is recorded at that step; a
skipped URL leaves the state unchanged; the seen-set threads through all
pages and queries of a run as if their extractions were one sequence; in
an `[A, B, A']` run where `A'` shares `A`'s key, only `A` and `B` are
written, in original form; and no two URLs written from a fresh run share
a normalization key. -/
theorem dedupe_run_spec :
    (∀ (st : DState) (u : String),
      ((process_url st u).out = st.out ++ [u] ↔
        (host_check u = false ∧ normalize_url_for_dedupe u ∉ st.seen)) ∧
      (host_check u = false ∧ normalize_url_for_dedupe u ∉ st.seen →
        (process_url st u).seen = normalize_url_for_dedupe u :: st.seen) ∧
      (¬(host_check u = false ∧ normalize_url_for_dedupe u ∉ st.seen) →
        process_url st u = st)) ∧
    (∀ (st : DState) (batches : List (List String)),
      batches.foldl process_urls st = process_urls st batches.join) ∧
    (∀ A B A1 : String,
      host_check A = false → host_check B = false →
      normalize_url_for_dedupe A1 = normalize_url_for_dedupe A →
      normalize_url_for_dedupe B ≠ normalize_url_for_dedupe A →
      (process_urls initState [A, B, A1]).out = [A, B]) ∧
    (∀ us : List String,
      List.Pairwise (fun a b => normalize_url_for_dedupe a ≠ normalize_url_for_dedupe b)
        (process_urls initState us).out) := by
  refine ⟨fun st u => ⟨process_url_out_iff st u, ?_, process_url_skip⟩,
    process_urls_join, ?_, ?_⟩
  · intro hc
    rw [process_url_take hc]
  · intro A B A1 hA hB hkey hBkey
    have h1 : process_url initState A = ⟨[normalize_url_for_dedupe A], [A]⟩ :=
      process_url_take ⟨hA, by simp [initState]⟩
    have h2 : process_url ⟨[normalize_url_for_dedupe A], [A]⟩ B =
        ⟨[normalize_url_for_dedupe B, normalize_url_for_dedupe A], [A, B]⟩ := by
      rw [process_url_take ⟨hB, by simpa using hBkey⟩]
      rfl
    have h3 : process_url
        ⟨[normalize_url_for_dedupe B, normalize_url_for_dedupe A], [A, B]⟩ A1 =
        ⟨[normalize_url_for_dedupe B, normalize_url_for_dedupe A], [A, B]⟩ := by
      apply process_url_skip
      rintro ⟨-, hnot⟩
      exact hnot (by simp [hkey])
    show (process_url (process_url (process_url initState A) B) A1).out = [A, B]
    rw [h1, h2, h3]
  · intro us
    exact (process_urls_inv ⟨by simp [initState], by simp [initState]⟩ us).2

/-- Witness for C1 at a concrete `[A, B, A']` extraction with `A'` a
tracking-value variant of `A`. -/
theorem dedupe_run_witness :
    (process_urls initState
      ["https://a.example/p?id=1&utm_source=x", "https://b.example/q",
       "https://a.example/p?id=1&utm_source=y"]).out =
      ["https://a.example/p?id=1&utm_source=x", "https://b.example/q"] :=
  dedupe_run_spec.2.2.1
    "https://a.example/p?id=1&utm_source=x" "https://b.example/q"
    "https://a.example/p?id=1&utm_source=y"
    (by decide) (by decide) (by decide) (by decide)

/-! ## C7 and C8: the attempt loop and the pagination loop -/

theorem pageLoop_no_results_stop (fetch : Nat → List String × Option String) :
    ∀ (n start p : Nat), p ∈ pageLoop fetch start n →
      ∀ q, start ≤ q → q < p → (fetch q).2 ≠ some "no-results" := by
  intro n
  induction n with
  | zero => intro start p hp; exact absurd hp (by simp [pageLoop])
  | succ m ih =>
    intro start p hp q hq1 hq2
    rw [pageLoop] at hp
    by_cases hnr : (fetch start).2 = some "no-results"
    · rw [if_pos hnr] at hp
      rw [List.mem_singleton.mp hp] at hq2
      omega
    · rw [if_neg hnr] at hp
      rcases List.mem_cons.mp hp with rfl | hp2
      · omega
      · by_cases hqs : q = start
        · rw [hqs]; exact hnr
        · exact ih (start + 1) p hp2 q (by omega) hq2

theorem pageLoop_head_mem (fetch : Nat → List String × Option String)
    (n start : Nat) (hn : 0 < n) : start ∈ pageLoop fetch start n := by
  cases n with
  | zero => omega
  | succ m =>
    rw [pageLoop]
    by_cases hnr : (fetch start).2 = some "no-results"
    · rw [if_pos hnr]; exact List.mem_singleton.mpr rfl
    · rw [if_neg hnr]; exact List.mem_cons_self _ _

theorem pageLoop_continue (fetch : Nat → List String × Option String) :
    ∀ (n start p : Nat), p ∈ pageLoop fetch start n →
      (fetch p).2 ≠ some "no-results" → p + 1 < start + n →
      p + 1 ∈ pageLoop fetch start n := by
  intro n
  induction n with
  | zero => intro start p hp; exact absurd hp (by simp [pageLoop])
  | succ m ih =>
    intro start p hp hpn hlt
    rw [pageLoop] at hp ⊢
    by_cases hnr : (fetch start).2 = some "no-results"
    · rw [if_pos hnr] at hp
      rw [List.mem_singleton.mp hp] at hpn
      exact absurd hnr hpn
    · rw [if_neg hnr] at hp ⊢
      rcases List.mem_cons.mp hp with rfl | hp2
      · refine List.mem_cons_of_mem _ (pageLoop_head_mem fetch m (p + 1) ?_)
        omega
      · refine List.mem_cons_of_mem _ (ih (start + 1) p hp2 hpn ?_)
        omega

/-- C7: an attempt that reads a body containing "did not match any
documents" (case-insensitively) returns zero URLs with reason
`no-results` immediately, whatever attempt budget remains; and no page
beyond a `no-results` page is ever fetched for that query. -/
theorem no_results_short_circuit :
    (∀ (headful : Bool) (env : AttemptEnv) (rest : List AttemptEnv)
        (lastErr : Option String),
      env.gotoErr = none →
      (env.captcha = true → headful = true ∧ env.userInterrupt = false ∧
        env.solved = true) →
      phraseNoDocs env.html = true →
      attemptLoop headful (env :: rest) lastErr = ([], some "no-results")) ∧
    (∀ (fetch : Nat → List String × Option String) (pages p q : Nat),
      p ∈ pagesFetched fetch pages → q < p →
      (fetch q).2 ≠ some "no-results") := by
  constructor
  · intro headful env rest lastErr hgoto hcap hphrase
    have hred : attemptLoop headful (env :: rest) lastErr =
        (if env.captcha && headful && env.userInterrupt then ([], some "user-abort")
         else if env.captcha && headful && !env.solved then
           attemptLoop headful rest (some "captcha-still")
         else if env.captcha && !headful then
           attemptLoop headful rest (some "captcha-headless")
         else
           if phraseNoDocs env.html then ([], some "no-results")
           else
             let urls := extract_serp_urls env.hrefs
             if urls = [] then attemptLoop headful rest (some "no-urls")
             else (urls, none)) := by
      rw [attemptLoop, hgoto]
    rw [hred]
    cases hc : env.captcha with
    | false =>
      rw [if_neg (by simp [hc]), if_neg (by simp [hc]), if_neg (by simp [hc]),
        if_pos hphrase]
    | true =>
      obtain ⟨hh, hi, hs⟩ := hcap hc
      rw [if_neg (by simp [hc, hh, hi]), if_neg (by simp [hc, hh, hs]),
        if_neg (by simp [hh]), if_pos hphrase]
  · intro fetch pages p q hp hq
    exact pageLoop_no_results_stop fetch pages 0 p hp q (Nat.zero_le q) hq

/-- Witness for C7: a no-captcha attempt whose body carries the phrase
stops with `no-results` even with another attempt budgeted, and from a
trace whose page 1 says `no-results`, page 2's being fetched would make
page 1 ≠ `no-results`. -/
theorem no_results_short_circuit_witness :
    attemptLoop false
      [⟨none, false, false, false, "These terms did not match any documents.", []⟩,
       ⟨none, false, false, false, "x", ["https://a.example"]⟩] none
      = ([], some "no-results") ∧
    ((fun _ => (["https://a.example"], (none : Option String))) 0).2 ≠
      some "no-results" := by
  constructor
  · exact no_results_short_circuit.1 false
      ⟨none, false, false, false, "These terms did not match any documents.", []⟩
      [⟨none, false, false, false, "x", ["https://a.example"]⟩] none
      rfl (by decide) (by decide)
  · exact no_results_short_circuit.2
      (fun _ => (["https://a.example"], (none : Option String))) 3 2 0
      (by decide) (by decide)

/-- C8 counterexample: a headful run whose every fetch hits the captcha
prompt and is interrupted returns `user-abort`, yet with `pages = 2` the
query loop still fetches page 1 after page 0's interrupt — the remaining
pages of the query are NOT skipped, contradicting the claim (which
predicts only `[0]` is fetched). -/
theorem user_abort_pages_counterexample :
    fetch_single_page true [⟨none, true, true, false, "", []⟩] =
      ([], some "user-abort") ∧
    pagesFetched (fun _ => fetch_single_page true [⟨none, true, true, false, "", []⟩]) 2
      = [0, 1] ∧
    ([0, 1] : List Nat) ≠ [0] :=
  ⟨by decide, by decide, by decide⟩

/-- C8, amended: a Ctrl-C during the manual captcha wait ends only the
current page's attempt loop, returning zero URLs with reason
`user-abort` (the run is not aborted), and the query loop then proceeds
to the next configured page of the same query — remaining pages are not
skipped. -/
theorem user_abort_behaviour :
    (∀ (headful : Bool) (env : AttemptEnv) (rest : List AttemptEnv)
        (lastErr : Option String),
      env.gotoErr = none → env.captcha = true → headful = true →
      env.userInterrupt = true →
      attemptLoop headful (env :: rest) lastErr = ([], some "user-abort")) ∧
    (∀ (fetch : Nat → List String × Option String) (pages p : Nat),
      p ∈ pagesFetched fetch pages → (fetch p).2 = some "user-abort" →
      p + 1 < pages → p + 1 ∈ pagesFetched fetch pages) := by
  constructor
  · intro headful env rest lastErr hgoto hc hh hi
    have hred : attemptLoop headful (env :: rest) lastErr =
        (if env.captcha && headful && env.userInterrupt then ([], some "user-abort")
         else if env.captcha && headful && !env.solved then
           attemptLoop headful rest (some "captcha-still")
         else if env.captcha && !headful then
           attemptLoop headful rest (some "captcha-headless")
         else
           if phraseNoDocs env.html then ([], some "no-results")
           else
             let urls := extract_serp_urls env.hrefs
             if urls = [] then attemptLoop headful rest (some "no-urls")
             else (urls, none)) := by
      rw [attemptLoop, hgoto]
    rw [hred, if_pos (by simp [hc, hh, hi])]
  · intro fetch pages p hp habort hlt
    refine pageLoop_continue fetch pages 0 p hp ?_ (by omega)
    rw [habort]
    decide

/-- Witness for C8: the interrupt returns `user-abort` with attempts to
spare, and in a 2-page trace whose page 0 aborts, page 1 is fetched. -/
theorem user_abort_behaviour_witness :
    attemptLoop true
      [⟨none, true, true, false, "", []⟩, ⟨none, false, false, false, "x", []⟩] none
      = ([], some "user-abort") ∧
    (1 : Nat) ∈ pagesFetched (fun _ => ([], some "user-abort")) 2 := by
  constructor
  · exact user_abort_behaviour.1 true ⟨none, true, true, false, "", []⟩
      [⟨none, false, false, false, "x", []⟩] none rfl rfl rfl rfl
  · exact user_abort_behaviour.2 (fun _ => ([], some "user-abort")) 2 0
      (by decide) (by decide) (by decide)

/-! ## C9: the shape of the normalization key -/

/-- C9 counterexample: for `https://example.com` the parsed path is empty,
and the key is `https://example.com/` — not scheme://host/path with the
path kept verbatim, which would be `https://example.com`. -/
theorem empty_path_counterexample :
    (urlparse "https://example.com".data).map UrlParts.path = some [] ∧
    claimKeyVerbatimPath "https://example.com" = some "https://example.com" ∧
    normalize_url_for_dedupe "https://example.com" = "https://example.com/" ∧
    ("https://example.com/" : String) ≠ "https://example.com" :=
  ⟨by decide, by decide, by decide, by decide⟩

/-- C9, amended: for every URL string that parses, the key is the
lowercased (defaulted) scheme, `://`, the lowercased host, then the parsed
path kept verbatim except that an empty path becomes `/`, optionally
followed by the sorted parameter-name part (omitted exactly when no
parameter names survive). -/
theorem key_shape_spec :
    ∀ (u : String) (p : UrlParts), urlparse u.data = some p →
      (normalize_url_for_dedupe u).data =
        lowerL (if p.scheme = [] then "http".data else p.scheme) ++ "://".data ++
        lowerL p.netloc ++ (if p.path = [] then "/".data else p.path) ++
        (if keptNames u = [] then []
         else "?".data ++ joinAmp (sortNames (keptNames u))) := by
  intro u p hp
  simp only [normalize_url_for_dedupe, keptNames, hp]
  by_cases hk : pyDedup (((parse_qsl p.query).map fun kv => lowerL kv.1).filter
      fun k => !isTrackingName k) = []
  · rw [if_pos hk, if_pos hk]
    simp [List.append_assoc]
  · rw [if_neg hk, if_neg hk]
    simp [List.append_assoc]

/-- Witness for C9 at `https://example.com` (parsed scheme `https`, host
`example.com`, empty path, no parameters). -/
theorem key_shape_witness :
    (normalize_url_for_dedupe "https://example.com").data =
      lowerL (if ("https".data : List Char) = [] then "http".data else "https".data) ++
      "://".data ++ lowerL "example.com".data ++
      (if ([] : List Char) = [] then "/".data else []) ++
      (if keptNames "https://example.com" = [] then []
       else "?".data ++ joinAmp (sortNames (keptNames "https://example.com"))) :=
  key_shape_spec "https://example.com"
    ⟨"https".data, "example.com".data, [], [], []⟩ (by decide)

/-! ## C3: idempotence of normalization -/

/-- C3 counterexample: normalization is not idempotent on every string.
A schemeless URL parses with its host in the path position; the first
pass yields `http://example.com`, whose second pass re-parses
`example.com` as a host with empty path and appends `/`. -/
theorem normalize_not_idempotent_schemeless :
    normalize_url_for_dedupe "example.com" = "http://example.com" ∧
    normalize_url_for_dedupe (normalize_url_for_dedupe "example.com") =
      "http://example.com/" ∧
    normalize_url_for_dedupe (normalize_url_for_dedupe "example.com") ≠
      normalize_url_for_dedupe "example.com" :=
  ⟨by decide, by decide, by decide⟩

/-! ### Character-level facts about ASCII lowercasing -/

theorem char_eq_of_toNat_eq {c d : Char} (h : c.toNat = d.toNat) : c = d := by
  have h1 : Char.ofNat c.toNat = Char.ofNat d.toNat := congrArg Char.ofNat h
  rwa [Char.ofNat_toNat, Char.ofNat_toNat] at h1

theorem char_eq_iff_toNat {c d : Char} : c = d ↔ c.toNat = d.toNat :=
  ⟨fun h => h ▸ rfl, char_eq_of_toNat_eq⟩

theorem char_toNat_ofNat_valid {n : Nat} (h : n < 55296) : (Char.ofNat n).toNat = n := by
  have hv : n.isValidChar := Or.inl h
  rw [Char.ofNat, dif_pos hv]
  simp [Char.ofNatAux, Char.toNat, UInt32.toNat]

theorem char_toLower_cases (c : Char) :
    (65 ≤ c.toNat ∧ c.toNat ≤ 90 ∧ (c.toLower).toNat = c.toNat + 32) ∨
    (¬(65 ≤ c.toNat ∧ c.toNat ≤ 90) ∧ c.toLower = c) := by
  rw [Char.toLower]
  by_cases h : c.toNat ≥ 65 ∧ c.toNat ≤ 90
  · left
    rw [if_pos h]
    exact ⟨h.1, h.2, char_toNat_ofNat_valid (by omega)⟩
  · right
    rw [if_neg h]
    exact ⟨h, rfl⟩

theorem char_isUpper_iff (c : Char) : c.isUpper = true ↔ 65 ≤ c.toNat ∧ c.toNat ≤ 90 := by
  simp [Char.isUpper, UInt32.le_def, BitVec.le_def, UInt32.toNat, Char.toNat]

theorem char_isLower_iff (c : Char) : c.isLower = true ↔ 97 ≤ c.toNat ∧ c.toNat ≤ 122 := by
  simp [Char.isLower, UInt32.le_def, BitVec.le_def, UInt32.toNat, Char.toNat]

theorem char_isDigit_iff (c : Char) : c.isDigit = true ↔ 48 ≤ c.toNat ∧ c.toNat ≤ 57 := by
  simp [Char.isDigit, UInt32.le_def, BitVec.le_def, UInt32.toNat, Char.toNat]

theorem char_isAlpha_iff (c : Char) :
    c.isAlpha = true ↔ (65 ≤ c.toNat ∧ c.toNat ≤ 90) ∨ (97 ≤ c.toNat ∧ c.toNat ≤ 122) := by
  simp [Char.isAlpha, char_isUpper_iff, char_isLower_iff]

theorem char_toLower_toLower (c : Char) : c.toLower.toLower = c.toLower := by
  rcases char_toLower_cases c with ⟨_, _, h3⟩ | ⟨_, h2⟩
  · rcases char_toLower_cases c.toLower with ⟨h4, h5, _⟩ | ⟨_, h6⟩
    · omega
    · exact h6
  · rw [h2, h2]

theorem char_toLower_eq_iff {c : Char} (d : Char)
    (hd : d.toNat < 65 ∨ (90 < d.toNat ∧ d.toNat < 97) ∨ 122 < d.toNat) :
    c.toLower = d ↔ c = d := by
  constructor
  · intro h
    rcases char_toLower_cases c with ⟨_, _, h3⟩ | ⟨_, h2⟩
    · rw [char_eq_iff_toNat] at h
      omega
    · rwa [h2] at h
  · intro h
    subst h
    rcases char_toLower_cases c with ⟨h1, h2, _⟩ | ⟨_, h4⟩
    · omega
    · exact h4

theorem char_toLower_isAlpha {c : Char} (h : c.isAlpha = true) :
    c.toLower.isAlpha = true := by
  rw [char_isAlpha_iff] at h ⊢
  rcases char_toLower_cases c with ⟨h1, h2, h3⟩ | ⟨_, h4⟩
  · omega
  · rwa [h4]

theorem char_toLower_scheme_char {c : Char} (h : scheme_char c = true) :
    scheme_char c.toLower = true := by
  rw [scheme_char] at h ⊢
  simp only [Bool.or_eq_true, decide_eq_true_eq, or_assoc] at h ⊢
  rcases h with ha | hd | hplus | hminus | hdot
  · exact Or.inl (char_toLower_isAlpha ha)
  · refine Or.inr (Or.inl ?_)
    rw [char_isDigit_iff] at hd ⊢
    rcases char_toLower_cases c with ⟨h1, _, _⟩ | ⟨_, h4⟩
    · omega
    · rwa [h4]
  · exact Or.inr (Or.inr (Or.inl
      (by rw [char_toLower_eq_iff '+' (by decide)]; exact hplus)))
  · refine Or.inr (Or.inr (Or.inr (Or.inl ?_)))
    rw [char_toLower_eq_iff '-' (by decide)]
    exact hminus
  · refine Or.inr (Or.inr (Or.inr (Or.inr ?_)))
    rw [char_toLower_eq_iff '.' (by decide)]
    exact hdot

theorem char_toLower_tabCrLf (c : Char) : tabCrLf c.toLower = tabCrLf c := by
  rw [tabCrLf, tabCrLf]
  rw [decide_eq_decide.mpr (char_toLower_eq_iff '\t' (by decide)),
    decide_eq_decide.mpr (char_toLower_eq_iff '\r' (by decide)),
    decide_eq_decide.mpr (char_toLower_eq_iff '\n' (by decide))]

theorem char_toLower_netlocEnd (c : Char) : netlocEnd c.toLower = netlocEnd c := by
  rw [netlocEnd, netlocEnd]
  rw [decide_eq_decide.mpr (char_toLower_eq_iff '/' (by decide)),
    decide_eq_decide.mpr (char_toLower_eq_iff '?' (by decide)),
    decide_eq_decide.mpr (char_toLower_eq_iff '#' (by decide))]

theorem scheme_char_toNat {c : Char} (h : scheme_char c = true) :
    c.toNat = 43 ∨ c.toNat = 45 ∨ c.toNat = 46 ∨ (48 ≤ c.toNat ∧ c.toNat ≤ 57) ∨
    (65 ≤ c.toNat ∧ c.toNat ≤ 90) ∨ (97 ≤ c.toNat ∧ c.toNat ≤ 122) := by
  rw [scheme_char] at h
  simp only [Bool.or_eq_true, decide_eq_true_eq, or_assoc] at h
  rcases h with ha | hd | hplus | hminus | hdot
  · rw [char_isAlpha_iff] at ha
    omega
  · rw [char_isDigit_iff] at hd
    omega
  · rw [char_eq_iff_toNat, show Char.toNat '+' = 43 from by decide] at hplus
    omega
  · rw [char_eq_iff_toNat, show Char.toNat '-' = 45 from by decide] at hminus
    omega
  · rw [char_eq_iff_toNat, show Char.toNat '.' = 46 from by decide] at hdot
    omega

theorem scheme_char_ne_colon {c : Char} (h : scheme_char c = true) : c ≠ ':' := by
  intro hc
  have := scheme_char_toNat h
  rw [hc] at this
  revert this
  decide

theorem scheme_char_not_tabCrLf {c : Char} (h : scheme_char c = true) :
    tabCrLf c = false := by
  have hn := scheme_char_toNat h
  have ht : c ≠ '\t' := by
    intro hc
    rw [char_eq_iff_toNat, show Char.toNat '\t' = 9 from by decide] at hc
    omega
  have hr : c ≠ '\r' := by
    intro hc
    rw [char_eq_iff_toNat, show Char.toNat '\r' = 13 from by decide] at hc
    omega
  have hlf : c ≠ '\n' := by
    intro hc
    rw [char_eq_iff_toNat, show Char.toNat '\n' = 10 from by decide] at hc
    omega
  simp [tabCrLf, ht, hr, hlf]

theorem lowerL_lowerL (l : List Char) : lowerL (lowerL l) = lowerL l := by
  simp only [lowerL, List.map_map]
  exact List.map_congr_left fun c _ => char_toLower_toLower c

theorem lowerL_eq_self_of_mem {l : List Char} {ks : List (List Char)}
    (hl : l ∈ ks.map lowerL) : lowerL l = l := by
  rcases List.mem_map.mp hl with ⟨k, _, rfl⟩
  exact lowerL_lowerL k

/-! ### Generic takeWhile/dropWhile helpers -/

theorem takeWhile_all_of {p : Char → Bool} {l : List Char}
    (h : ∀ c ∈ l, p c = true) : l.takeWhile p = l ∧ l.dropWhile p = [] := by
  induction l with
  | nil => simp
  | cons a as ih =>
    have ha := h a (by simp)
    have ih2 := ih fun c hc => h c (by simp [hc])
    simp [List.takeWhile_cons, List.dropWhile_cons, ha, ih2.1, ih2.2]

theorem takeWhile_append_all {p : Char → Bool} {x : List Char} (y : List Char)
    (hx : ∀ c ∈ x, p c = true) :
    (x ++ y).takeWhile p = x ++ y.takeWhile p ∧
    (x ++ y).dropWhile p = y.dropWhile p := by
  induction x with
  | nil => simp
  | cons a as ih =>
    have ha := hx a (by simp)
    have ih2 := ih fun c hc => hx c (by simp [hc])
    simp [List.takeWhile_cons, List.dropWhile_cons, ha, ih2.1, ih2.2]

theorem takeWhile_cons_false {p : Char → Bool} {d : Char} (t : List Char)
    (hd : p d = false) :
    (d :: t).takeWhile p = [] ∧ (d :: t).dropWhile p = d :: t := by
  simp [List.takeWhile_cons, List.dropWhile_cons, hd]

theorem mem_takeWhile_pred {p : Char → Bool} {l : List Char} {c : Char}
    (h : c ∈ l.takeWhile p) : p c = true := by
  induction l with
  | nil => simp [List.takeWhile] at h
  | cons a as ih =>
    rw [List.takeWhile_cons] at h
    by_cases ha : p a = true
    · rw [if_pos ha] at h
      rcases List.mem_cons.mp h with rfl | h2
      · exact ha
      · exact ih h2

    · rw [if_neg (by simpa using ha)] at h
      exact absurd h (by simp)

theorem drop_marker_append {x t : List Char} {sep : Char}
    (hx : ∀ c ∈ x, c ≠ sep) :
    (x ++ sep :: t).takeWhile (· ≠ sep) = x ∧
    ((x ++ sep :: t).dropWhile (· ≠ sep)).drop 1 = t := by
  have h1 := takeWhile_append_all (p := fun c => decide (c ≠ sep)) (sep :: t)
    (fun c hc => by simpa using hx c hc)
  have h2 := takeWhile_cons_false (p := fun c => decide (c ≠ sep)) (d := sep) t
    (by simp)
  refine ⟨?_, ?_⟩
  · rw [h1.1, h2.1, List.append_nil]
  · rw [h1.2, h2.2, List.drop_one, List.tail_cons]

theorem splitFirst_no_sep {sep : Char} {l : List Char}
    (h : ∀ c ∈ l, c ≠ sep) : splitFirst sep l = (l, []) := by
  have h2 := takeWhile_all_of (p := fun c => decide (c ≠ sep))
    (fun c hc => by simpa using h c hc)
  rw [splitFirst, h2.1, h2.2]
  rfl

theorem splitFirst_marker {sep : Char} {x t : List Char}
    (hx : ∀ c ∈ x, c ≠ sep) : splitFirst sep (x ++ sep :: t) = (x, t) := by
  have := drop_marker_append (t := t) hx
  rw [splitFirst, this.1, this.2]

/-! ### pyUnquote and plusToSpace act as identity on plain text -/

theorem pyUnquote_cons_ne {c : Char} (rest : List Char) (hc : c ≠ '%') :
    pyUnquote (c :: rest) = c :: pyUnquote rest := by
  rw [pyUnquote.eq_def]
  split
  · rename_i heq
    exact absurd heq (by simp)
  · rename_i a b r heq
    exact absurd (List.cons.inj heq).1 hc
  · rename_i c2 r hno heq
    rw [← (List.cons.inj heq).1, ← (List.cons.inj heq).2]

theorem pyUnquote_no_escape {l : List Char} (h : ∀ c ∈ l, c ≠ '%') :
    pyUnquote l = l := by
  induction l with
  | nil => rfl
  | cons c rest ih =>
    rw [pyUnquote_cons_ne rest (h c (by simp)), ih fun x hx => h x (by simp [hx])]

theorem plusToSpace_no_plus {l : List Char} (h : ∀ c ∈ l, c ≠ '+') :
    plusToSpace l = l := by
  rw [plusToSpace]
  have h2 : List.map (fun c => if c = '+' then ' ' else c) l = List.map id l :=
    List.map_congr_left fun c hc => by rw [if_neg (h c hc)]; rfl
  rw [h2, List.map_id]

/-! ### pySplitChar against separator-free chunks -/

theorem pySplitChar_no_sep {sep : Char} {l : List Char}
    (h : ∀ c ∈ l, c ≠ sep) : pySplitChar sep l = [l] := by
  induction l with
  | nil => rfl
  | cons c rest ih =>
    rw [pySplitChar, if_neg (h c (by simp)), ih fun x hx => h x (by simp [hx])]

theorem pySplitChar_marker {sep : Char} {x t : List Char}
    (hx : ∀ c ∈ x, c ≠ sep) :
    pySplitChar sep (x ++ sep :: t) = x :: pySplitChar sep t := by
  induction x with
  | nil =>
    rw [List.nil_append, pySplitChar, if_pos rfl]
  | cons a as ih =>
    rw [List.cons_append, pySplitChar, if_neg (hx a (by simp)),
      ih fun c hc => hx c (by simp [hc])]

/-! ### Sorting: Python `sorted` and its fixed points -/

theorem lexLe_total (a b : List Char) : lexLe a b = true ∨ lexLe b a = true := by
  induction a generalizing b with
  | nil => exact Or.inl rfl
  | cons x xs ih =>
    cases b with
    | nil => exact Or.inr rfl
    | cons y ys =>
      rw [lexLe, lexLe]
      by_cases hxy : x.toNat < y.toNat
      · exact Or.inl (by simp [hxy])
      · by_cases hyx : y.toNat < x.toNat
        · exact Or.inr (by simp [hyx])
        · have heq : x.toNat = y.toNat := by omega
          have heq2 : y.toNat = x.toNat := heq.symm
          rcases ih ys with h | h
          · exact Or.inl (by simp [heq, h])
          · exact Or.inr (by simp [heq2, h])

theorem lexLe_trans : ∀ {a b c : List Char},
    lexLe a b = true → lexLe b c = true → lexLe a c = true
  | [], _, _, _, _ => rfl
  | _ :: _, [], _, hab, _ => by simp [lexLe] at hab
  | _ :: _, _ :: _, [], _, hbc => by simp [lexLe] at hbc
  | x :: xs, y :: ys, z :: zs, hab, hbc => by
    rw [lexLe] at hab hbc ⊢
    simp only [Bool.or_eq_true, Bool.and_eq_true, decide_eq_true_eq] at hab hbc ⊢
    rcases hab with h1 | ⟨h1, h2⟩
    · rcases hbc with h3 | ⟨h3, _⟩
      · exact Or.inl (by omega)
      · exact Or.inl (by omega)
    · rcases hbc with h3 | ⟨h3, h4⟩
      · exact Or.inl (by omega)
      · exact Or.inr ⟨by omega, lexLe_trans h2 h4⟩

theorem insertSorted_perm (x : List Char) (l : List (List Char)) :
    (insertSorted x l).Perm (x :: l) := by
  induction l with
  | nil => exact List.Perm.refl _
  | cons y ys ih =>
    rw [insertSorted]
    by_cases h : lexLe x y = true
    · rw [if_pos h]
    · rw [if_neg h]
      exact (ih.cons y).trans (List.Perm.swap x y ys)

theorem sortNames_perm (l : List (List Char)) : (sortNames l).Perm l := by
  induction l with
  | nil => exact List.Perm.refl _
  | cons x xs ih =>
    rw [sortNames]
    exact (insertSorted_perm x (sortNames xs)).trans (ih.cons x)

theorem insertSorted_pairwise {x : List Char} {l : List (List Char)}
    (hl : l.Pairwise (fun a b => lexLe a b = true)) :
    (insertSorted x l).Pairwise (fun a b => lexLe a b = true) := by
  induction l with
  | nil => simp [insertSorted]
  | cons y ys ih =>
    rw [insertSorted]
    rw [List.pairwise_cons] at hl
    by_cases h : lexLe x y = true
    · rw [if_pos h]
      rw [List.pairwise_cons]
      refine ⟨?_, List.pairwise_cons.mpr hl⟩
      intro z hz
      rcases List.mem_cons.mp hz with rfl | hz2
      · exact h
      · exact lexLe_trans h (hl.1 z hz2)
    · rw [if_neg h]
      rw [List.pairwise_cons]
      refine ⟨?_, ih hl.2⟩
      intro z hz
      have hz3 := (insertSorted_perm x ys).mem_iff.mp hz
      rcases List.mem_cons.mp hz3 with heq | hz2
      · subst heq
        rcases lexLe_total z y with h2 | h2
        · exact absurd h2 h
        · exact h2
      · exact hl.1 z hz2

theorem sortNames_pairwise (l : List (List Char)) :
    (sortNames l).Pairwise (fun a b => lexLe a b = true) := by
  induction l with
  | nil => simp [sortNames]
  | cons x xs ih =>
    rw [sortNames]
    exact insertSorted_pairwise ih

theorem sortNames_eq_self {l : List (List Char)}
    (hl : l.Pairwise (fun a b => lexLe a b = true)) : sortNames l = l := by
  induction l with
  | nil => rfl
  | cons x xs ih =>
    rw [List.pairwise_cons] at hl
    rw [sortNames, ih hl.2]
    cases xs with
    | nil => rfl
    | cons y ys =>
      rw [insertSorted, if_pos (hl.1 y (by simp))]

/-! ### The first-occurrence accumulation loop `seen_k` -/

theorem pyDedup_go_nodup (l : List (List Char)) :
    ∀ acc : List (List Char), acc.Nodup →
      (l.foldl (fun acc k => if k ∈ acc then acc else acc ++ [k]) acc).Nodup := by
  induction l with
  | nil => intro acc h; exact h
  | cons k rest ih =>
    intro acc hacc
    rw [List.foldl_cons]
    by_cases hk : k ∈ acc
    · rw [if_pos hk]
      exact ih acc hacc
    · rw [if_neg hk]
      refine ih _ ?_
      rw [List.nodup_append]
      refine ⟨hacc, List.nodup_singleton k, ?_⟩
      intro a ha ha2
      rw [List.mem_singleton.mp ha2] at ha
      exact hk ha

theorem pyDedup_nodup (l : List (List Char)) : (pyDedup l).Nodup :=
  pyDedup_go_nodup l [] List.nodup_nil

theorem pyDedup_go_subset (l : List (List Char)) :
    ∀ (acc : List (List Char)) (x : List Char),
      x ∈ l.foldl (fun acc k => if k ∈ acc then acc else acc ++ [k]) acc →
      x ∈ acc ∨ x ∈ l := by
  induction l with
  | nil => intro acc x h; exact Or.inl h
  | cons k rest ih =>
    intro acc x h
    rw [List.foldl_cons] at h
    by_cases hk : k ∈ acc
    · rw [if_pos hk] at h
      rcases ih acc x h with h2 | h2
      · exact Or.inl h2
      · exact Or.inr (by simp [h2])
    · rw [if_neg hk] at h
      rcases ih _ x h with h2 | h2
      · rcases List.mem_append.mp h2 with h3 | h3
        · exact Or.inl h3
        · exact Or.inr (by simp [List.mem_singleton.mp h3])
      · exact Or.inr (by simp [h2])

theorem pyDedup_subset {l : List (List Char)} {x : List Char}
    (h : x ∈ pyDedup l) : x ∈ l := by
  rcases pyDedup_go_subset l [] x h with h2 | h2
  · exact absurd h2 (by simp)
  · exact h2

theorem pyDedup_go_eq_self (l : List (List Char)) :
    ∀ acc : List (List Char), (acc ++ l).Nodup →
      l.foldl (fun acc k => if k ∈ acc then acc else acc ++ [k]) acc = acc ++ l := by
  induction l with
  | nil => intro acc _; simp
  | cons k rest ih =>
    intro acc hacc
    rw [List.foldl_cons]
    have hk : k ∉ acc := by
      rw [List.nodup_append] at hacc
      intro hmem
      exact hacc.2.2 hmem (by simp)
    rw [if_neg hk]
    have h2 : ((acc ++ [k]) ++ rest).Nodup := by
      simpa [List.append_assoc] using hacc
    rw [ih (acc ++ [k]) h2, List.append_assoc]
    rfl

theorem pyDedup_eq_self {l : List (List Char)} (h : l.Nodup) : pyDedup l = l := by
  rw [pyDedup, pyDedup_go_eq_self l [] (by simpa using h), List.nil_append]

/-! ### joinAmp and its parse -/

theorem joinAmp_ne_nil {ks : List (List Char)} (h : ks ≠ []) : joinAmp ks ≠ [] := by
  cases ks with
  | nil => exact absurd rfl h
  | cons k rest =>
    cases rest with
    | nil =>
      rw [joinAmp]
      simp
    | cons k2 rest2 =>
      rw [joinAmp] <;> simp

theorem joinAmp_mem {c : Char} : ∀ {ks : List (List Char)}, c ∈ joinAmp ks →
    (∃ k ∈ ks, c ∈ k) ∨ c = '=' ∨ c = '&'
  | [], h => by simp [joinAmp] at h
  | [k], h => by
    rw [joinAmp] at h
    rcases List.mem_append.mp h with h2 | h2
    · exact Or.inl ⟨k, by simp, h2⟩
    · exact Or.inr (Or.inl (by simpa using h2))
  | k :: k2 :: rest, h => by
    have hj : joinAmp (k :: k2 :: rest) = k ++ '=' :: '&' :: joinAmp (k2 :: rest) := by
      rw [joinAmp] <;> simp
    rw [hj] at h
    rcases List.mem_append.mp h with h2 | h2
    · exact Or.inl ⟨k, by simp, h2⟩
    · rcases List.mem_cons.mp h2 with h3 | h3
      · exact Or.inr (Or.inl h3)
      · rcases List.mem_cons.mp h3 with h4 | h4
        · exact Or.inr (Or.inr h4)
        · rcases joinAmp_mem h4 with ⟨k3, hk3, hc⟩ | h5
          · exact Or.inl ⟨k3, by simp [hk3], hc⟩
          · exact Or.inr h5

/-- Parsing the reconstructed query gives back exactly the names with
blank values. -/
theorem parse_qsl_joinAmp : ∀ {ks : List (List Char)}, ks ≠ [] →
    (∀ k ∈ ks, plainName k = true) →
    parse_qsl (joinAmp ks) = ks.map (fun k => (k, ([] : List Char)))
  | [], h, _ => absurd rfl h
  | [k], _, hplain => by
    have hpk := hplain k (by simp)
    rw [plainName, List.all_eq_true] at hpk
    have hne : ∀ c ∈ k, c ≠ '=' := by
      intro c hc heq
      have := hpk c hc
      rw [heq] at this
      revert this
      decide
    have hna : ∀ c ∈ k ++ ['='], c ≠ '&' := by
      intro c hc heq
      rcases List.mem_append.mp hc with h2 | h2
      · have := hpk c h2
        rw [heq] at this
        revert this
        decide
      · rw [List.mem_singleton.mp h2] at heq
        exact absurd heq (by decide)
    have hplus : ∀ c ∈ k, c ≠ '+' := by
      intro c hc heq
      have := hpk c hc
      rw [heq] at this
      revert this
      decide
    have hpct : ∀ c ∈ k, c ≠ '%' := by
      intro c hc heq
      have := hpk c hc
      rw [heq] at this
      revert this
      decide
    rw [joinAmp, parse_qsl, if_neg (by simp), pySplitChar_no_sep hna]
    rw [List.filterMap_cons, List.filterMap_nil]
    have hsplit := drop_marker_append (t := ([] : List Char)) hne
    rw [if_neg (by simp), hsplit.1,
      if_pos (by simp [List.length_append])]
    have hdrop : (k ++ '=' :: []).drop (k.length + 1) = [] := by
      have : (k ++ '=' :: []).length = k.length + 1 := by simp
      rw [← this, List.drop_length]
    rw [hdrop, plusToSpace_no_plus hplus, pyUnquote_no_escape hpct]
    rfl
  | k :: k2 :: rest, _, hplain => by
    have hpk := hplain k (by simp)
    rw [plainName, List.all_eq_true] at hpk
    have hne : ∀ c ∈ k, c ≠ '=' := by
      intro c hc heq
      have := hpk c hc
      rw [heq] at this
      revert this
      decide
    have hka : ∀ c ∈ k ++ ['='], c ≠ '&' := by
      intro c hc heq
      rcases List.mem_append.mp hc with h2 | h2
      · have := hpk c h2
        rw [heq] at this
        revert this
        decide
      · rw [List.mem_singleton.mp h2] at heq
        exact absurd heq (by decide)
    have hplus : ∀ c ∈ k, c ≠ '+' := by
      intro c hc heq
      have := hpk c hc
      rw [heq] at this
      revert this
      decide
    have hpct : ∀ c ∈ k, c ≠ '%' := by
      intro c hc heq
      have := hpk c hc
      rw [heq] at this
      revert this
      decide
    have hrest : joinAmp (k2 :: rest) ≠ [] := joinAmp_ne_nil (by simp)
    have ihr := @parse_qsl_joinAmp (k2 :: rest) (by simp)
      (fun x hx => hplain x (by simp [hx]))
    have hj : joinAmp (k :: k2 :: rest) = (k ++ ['=']) ++ '&' :: joinAmp (k2 :: rest) := by
      rw [joinAmp] <;> simp
    rw [hj, parse_qsl, if_neg (by simp), pySplitChar_marker hka]
    rw [List.filterMap_cons]
    have hsplit := drop_marker_append (t := ([] : List Char)) hne
    rw [if_neg (by simp), hsplit.1, if_pos (by simp [List.length_append])]
    have hdrop : (k ++ '=' :: []).drop (k.length + 1) = [] := by
      have : (k ++ '=' :: []).length = k.length + 1 := by simp
      rw [← this, List.drop_length]
    rw [hdrop, plusToSpace_no_plus hplus, pyUnquote_no_escape hpct]
    rw [parse_qsl, if_neg hrest] at ihr
    rw [ihr]
    rfl

/-! ### Re-parsing a reassembled key -/

theorem splitScheme_marker (s rest : List Char)
    (hs1 : s ≠ []) (hs2 : ∀ c ∈ s, scheme_char c = true)
    (hs3 : (s.headD 'a').isAlpha = true) :
    splitScheme (s ++ ':' :: rest) = (lowerL s, rest) := by
  have hcolon : ∀ c ∈ s, c ≠ ':' := fun c hc => scheme_char_ne_colon (hs2 c hc)
  have htake := drop_marker_append (t := rest) hcolon
  have hlen : s.length < (s ++ ':' :: rest).length := by
    rw [List.length_append]
    simp
  have hdrop : (s ++ ':' :: rest).drop (s.length + 1) = rest := by
    have h2 : s ++ ':' :: rest = (s ++ [':']) ++ rest := by simp
    have h3 : (s ++ [':']).length = s.length + 1 := by simp
    rw [h2, ← h3, List.drop_left]
  simp only [splitScheme, htake.1]
  rw [if_pos ⟨hlen, hs1, hs3, List.all_eq_true.mpr hs2⟩, hdrop]

theorem splitNetloc_parts (host tail2 : List Char)
    (hh : ∀ c ∈ host, netlocEnd c = false)
    (ht : tail2 = [] ∨ ∃ d t, tail2 = d :: t ∧ netlocEnd d = true) :
    splitNetloc ('/' :: '/' :: (host ++ tail2)) = (host, tail2) := by
  have h1 := takeWhile_append_all (p := fun c => !netlocEnd c) (x := host) tail2
    (fun c hc => by simp [hh c hc])
  have hred : splitNetloc ('/' :: '/' :: (host ++ tail2)) =
      ((host ++ tail2).takeWhile (fun c => !netlocEnd c),
       (host ++ tail2).dropWhile (fun c => !netlocEnd c)) := rfl
  rw [hred, h1.1, h1.2]
  rcases ht with rfl | ⟨d, t, rfl, hd⟩
  · simp
  · have h2 := takeWhile_cons_false (p := fun c => !netlocEnd c) (d := d) t
      (by simp [hd])
    rw [h2.1, h2.2, List.append_nil]

/-! ### `_splitparams` facts -/

theorem dropWhile_shape {p : Char → Bool} (l : List Char) :
    l.dropWhile p = [] ∨ ∃ d t, l.dropWhile p = d :: t ∧ p d = false := by
  induction l with
  | nil => exact Or.inl rfl
  | cons a as ih =>
    rw [List.dropWhile_cons]
    by_cases ha : p a = true
    · rw [if_pos ha]
      exact ih
    · rw [if_neg ha]
      exact Or.inr ⟨a, as, rfl, by simpa using ha⟩

theorem splitparams_id {url : List Char} (hu : url.headD ' ' = '/')
    (hns : ∀ c ∈ url.reverse.takeWhile (· ≠ '/'), c ≠ ';') :
    (_splitparams url).1 = url := by
  have hne : url ≠ [] := by
    intro h
    rw [h] at hu
    exact absurd hu (by decide)
  have hslash : url.any (· = '/') = true := by
    cases url with
    | nil => exact absurd rfl hne
    | cons d t =>
      have hd : d = '/' := by simpa using hu
      simp [hd]
  simp only [_splitparams]
  split
  · split
    · rename_i hg
      exfalso
      rcases List.any_eq_true.mp hg with ⟨c, hc, hc2⟩
      exact hns c (List.mem_reverse.mp hc) (by simpa using hc2)
    · rfl
  · rename_i hg
    exact absurd hslash hg

theorem splitparams_decomp {url : List Char} (hu : url.headD ' ' = '/') :
    ∃ pre t, url = pre ++ '/' :: t ∧ (∀ c ∈ t, c ≠ '/') ∧
      (((∀ c ∈ t, c ≠ ';') ∧ (_splitparams url).1 = url) ∨
       (_splitparams url).1 = pre ++ '/' :: t.takeWhile (· ≠ ';')) := by
  have hne : url ≠ [] := by
    intro h
    rw [h] at hu
    exact absurd hu (by decide)
  have hslash : url.any (· = '/') = true := by
    cases url with
    | nil => exact absurd rfl hne
    | cons d t =>
      have hd : d = '/' := by simpa using hu
      simp [hd]
  -- decompose the reverse at its first '/'
  rcases dropWhile_shape (p := fun c => decide (c ≠ '/')) url.reverse with hB | ⟨d, B2, hB, hd⟩
  · exfalso
    have hall : url.reverse.takeWhile (fun c => decide (c ≠ '/')) = url.reverse := by
      have := List.takeWhile_append_dropWhile
        (p := fun c => decide (c ≠ '/')) (l := url.reverse)
      rwa [hB, List.append_nil] at this
    rcases List.any_eq_true.mp hslash with ⟨c, hc, hc2⟩
    have hc3 : c ∈ url.reverse.takeWhile (fun x => decide (x ≠ '/')) := by
      rw [hall]
      exact List.mem_reverse.mpr hc
    have := mem_takeWhile_pred hc3
    rw [show c = '/' from by simpa using hc2] at this
    revert this
    decide
  · have hd2 : d = '/' := by simpa using hd
    subst hd2
    have hrev : url.reverse = url.reverse.takeWhile (fun c => decide (c ≠ '/')) ++ '/' :: B2 := by
      rw [← hB, List.takeWhile_append_dropWhile]
    set A := url.reverse.takeWhile (fun c => decide (c ≠ '/')) with hA
    have hurl : url = B2.reverse ++ '/' :: A.reverse := by
      have h2 := congrArg List.reverse hrev
      rw [List.reverse_reverse] at h2
      rw [h2, List.reverse_append, List.reverse_cons, List.append_assoc]
      rfl
    have htmem : ∀ c ∈ A.reverse, c ≠ '/' := by
      intro c hc
      have := mem_takeWhile_pred (List.mem_reverse.mp hc)
      simpa using this
    refine ⟨B2.reverse, A.reverse, hurl, htmem, ?_⟩
    by_cases hsemi : A.reverse.any (· = ';') = true
    · right
      have hlen : url.length - A.reverse.length = B2.reverse.length + 1 := by
        rw [hurl]
        simp only [List.length_append, List.length_cons]
        omega
      have htake : url.take (url.length - A.reverse.length) = B2.reverse ++ ['/'] := by
        rw [hlen, hurl]
        have h3 : (B2.reverse ++ ['/']).length = B2.reverse.length + 1 := by simp
        have h4 : B2.reverse ++ '/' :: A.reverse = (B2.reverse ++ ['/']) ++ A.reverse := by
          simp
        rw [h4, ← h3, List.take_left]
      have key : url.take (url.length - A.reverse.length) ++
            A.reverse.takeWhile (· ≠ ';')
          = B2.reverse ++ '/' :: A.reverse.takeWhile (· ≠ ';') := by
        rw [htake, List.append_assoc]
        rfl
      simp only [_splitparams]
      split
      all_goals first
        | exact key
        | (rename_i hg; exact absurd hsemi hg)
        | (rename_i hg; exact absurd hslash hg)
        | (split
           <;> first
             | exact key
             | (rename_i hg; exact absurd hsemi hg)
             | (rename_i hg; exact absurd hslash hg))
    · left
      have hns : ∀ c ∈ A.reverse, c ≠ ';' := by
        intro c hc heq
        exact hsemi (List.any_eq_true.mpr ⟨c, hc, by simp [heq]⟩)
      exact ⟨hns, splitparams_id hu
        (fun c hc => hns c (List.mem_reverse.mpr hc))⟩

theorem mem_takeWhile_mem {p : Char → Bool} {l : List Char} {c : Char}
    (h : c ∈ l.takeWhile p) : c ∈ l := by
  induction l with
  | nil => simpa [List.takeWhile] using h
  | cons a as ih =>
    rw [List.takeWhile_cons] at h
    by_cases ha : p a = true
    · rw [if_pos ha] at h
      rcases List.mem_cons.mp h with rfl | h2
      · simp
      · simp [ih h2]
    · rw [if_neg ha] at h
      exact absurd h (by simp)

theorem splitparams_noSemiLast {url : List Char} (hu : url.headD ' ' = '/') :
    ∀ c ∈ (_splitparams url).1.reverse.takeWhile (· ≠ '/'), c ≠ ';' := by
  rcases splitparams_decomp hu with ⟨pre, t, hurl, ht, ⟨hts, hout⟩ | hout⟩
  · rw [hout, hurl]
    intro c hc
    have h1 := takeWhile_append_all (p := fun x => decide (x ≠ '/'))
      (x := t.reverse) ('/' :: pre.reverse)
      (fun x hx => by simpa using ht x (List.mem_reverse.mp hx))
    have h2 : (pre ++ '/' :: t).reverse = t.reverse ++ '/' :: pre.reverse := by
      rw [List.reverse_append, List.reverse_cons, List.append_assoc]
      rfl
    rw [h2, h1.1] at hc
    have h3 := takeWhile_cons_false (p := fun x => decide (x ≠ '/'))
      (d := '/') pre.reverse (by simp)
    rw [h3.1, List.append_nil] at hc
    exact hts c (List.mem_reverse.mp hc)
  · rw [hout]
    intro c hc
    have h1 := takeWhile_append_all (p := fun x => decide (x ≠ '/'))
      (x := (t.takeWhile (· ≠ ';')).reverse) ('/' :: pre.reverse)
      (fun x hx => by
        simpa using ht x (mem_takeWhile_mem (List.mem_reverse.mp hx)))
    have h2 : (pre ++ '/' :: t.takeWhile (· ≠ ';')).reverse =
        (t.takeWhile (· ≠ ';')).reverse ++ '/' :: pre.reverse := by
      rw [List.reverse_append, List.reverse_cons, List.append_assoc]
      rfl
    rw [h2, h1.1] at hc
    have h3 := takeWhile_cons_false (p := fun x => decide (x ≠ '/'))
      (d := '/') pre.reverse (by simp)
    rw [h3.1, List.append_nil] at hc
    have := mem_takeWhile_pred (List.mem_reverse.mp hc)
    simpa using this

theorem splitparams_headD {url : List Char} (hu : url.headD ' ' = '/') :
    (_splitparams url).1.headD ' ' = '/' := by
  rcases splitparams_decomp hu with ⟨pre, t, hurl, _, ⟨_, hout⟩ | hout⟩
  · rw [hout]
    exact hu
  · rw [hout]
    rw [hurl] at hu
    cases pre with
    | nil => simp
    | cons p ps => simpa using hu

theorem splitparams_subset {url : List Char} (hu : url.headD ' ' = '/') :
    ∀ c ∈ (_splitparams url).1, c ∈ url := by
  rcases splitparams_decomp hu with ⟨pre, t, hurl, _, ⟨_, hout⟩ | hout⟩
  · rw [hout]
    exact fun c hc => hc
  · rw [hout, hurl]
    intro c hc
    rcases List.mem_append.mp hc with h2 | h2
    · exact List.mem_append.mpr (Or.inl h2)
    · rcases List.mem_cons.mp h2 with rfl | h3
      · exact List.mem_append.mpr (Or.inr (by simp))
      · exact List.mem_append.mpr
          (Or.inr (List.mem_cons.mpr (Or.inr (mem_takeWhile_mem h3))))

/-- Parsing `scheme://host/path[?query]` back, under the hygiene
conditions the first parse guarantees, recovers exactly the components. -/
theorem urlparse_reassembled (s host path qtail : List Char)
    (hs1 : s ≠ [])
    (hs2 : ∀ c ∈ s, scheme_char c = true)
    (hs3 : (s.headD 'a').isAlpha = true)
    (hhost1 : ∀ c ∈ host, netlocEnd c = false)
    (hhost2 : ∀ c ∈ host, tabCrLf c = false)
    (hbr : ((host.any (· = '[') && !host.any (· = ']')) ||
            (host.any (· = ']') && !host.any (· = '['))) = false)
    (hpath0 : path.headD ' ' = '/')
    (hpath1 : ∀ c ∈ path, c ≠ '#' ∧ c ≠ '?' ∧ tabCrLf c = false)
    (hqt : qtail = [] ∨ ∃ qp, qtail = '?' :: qp ∧ ∀ c ∈ qp, c ≠ '#' ∧ tabCrLf c = false)
    (hparams : ¬(lowerL s ∈ uses_params) ∨
       ∀ c ∈ path.reverse.takeWhile (· ≠ '/'), c ≠ ';') :
    urlparse (s ++ "://".data ++ host ++ path ++ qtail) =
      some ⟨lowerL s, host, path, qtail.drop 1, []⟩ := by
  have hpne : path ≠ [] := by
    intro h
    rw [h] at hpath0
    exact absurd hpath0 (by decide)
  have hshape : s ++ "://".data ++ host ++ path ++ qtail =
      s ++ ':' :: '/' :: '/' :: (host ++ (path ++ qtail)) := by
    simp
  -- cleaning is the identity on the key
  have hhead : ∀ {rest : List Char},
      (s ++ rest).dropWhile c0OrSpace = s ++ rest := by
    intro rest
    cases s with
    | nil => exact absurd rfl hs1
    | cons c s2 =>
      have hca : c.isAlpha = true := by simpa using hs3
      have hc0 : c0OrSpace c = false := by
        rw [char_isAlpha_iff] at hca
        simp only [c0OrSpace, decide_eq_false_iff_not]
        omega
      rw [List.cons_append, List.dropWhile_cons, if_neg (by simp [hc0])]
  have hclean : ∀ c ∈ s ++ "://".data ++ host ++ path ++ qtail, tabCrLf c = false := by
    intro c hc
    rw [hshape] at hc
    rcases List.mem_append.mp hc with hc1 | hc2
    · exact scheme_char_not_tabCrLf (hs2 c hc1)
    · rcases List.mem_cons.mp hc2 with rfl | hc3
      · decide
      · rcases List.mem_cons.mp hc3 with rfl | hc4
        · decide
        · rcases List.mem_cons.mp hc4 with rfl | hc5
          · decide
          · rcases List.mem_append.mp hc5 with hc6 | hc7
            · exact hhost2 c hc6
            · rcases List.mem_append.mp hc7 with hc8 | hc9
              · exact (hpath1 c hc8).2.2
              · rcases hqt with rfl | ⟨qp, rfl, hqp⟩
                · exact absurd hc9 (by simp)
                · rcases List.mem_cons.mp hc9 with rfl | hc10
                  · decide
                  · exact (hqp c hc10).2
  have hfilter : (s ++ "://".data ++ host ++ path ++ qtail).filter
      (fun c => !tabCrLf c) = s ++ "://".data ++ host ++ path ++ qtail :=
    List.filter_eq_self.mpr fun c hc => by simp [hclean c hc]
  have hurl0 : ((s ++ "://".data ++ host ++ path ++ qtail).dropWhile
      c0OrSpace).filter (fun c => !tabCrLf c) =
      s ++ ':' :: '/' :: '/' :: (host ++ (path ++ qtail)) := by
    rw [hshape, hhead, ← hshape, hfilter, hshape]
  have hsp : splitScheme (s ++ ':' :: '/' :: '/' :: (host ++ (path ++ qtail))) =
      (lowerL s, '/' :: '/' :: (host ++ (path ++ qtail))) :=
    splitScheme_marker s _ hs1 hs2 hs3
  have htl2 : path ++ qtail = [] ∨
      ∃ d t, path ++ qtail = d :: t ∧ netlocEnd d = true := by
    cases path with
    | nil => exact absurd rfl hpne
    | cons d t =>
      have hd : d = '/' := by simpa using hpath0
      exact Or.inr ⟨d, t ++ qtail, by simp, by simp [hd, netlocEnd]⟩
  have hnp : splitNetloc ('/' :: '/' :: (host ++ (path ++ qtail))) =
      (host, path ++ qtail) :=
    splitNetloc_parts host (path ++ qtail) hhost1 htl2
  have hfs : splitFirst '#' (path ++ qtail) = (path ++ qtail, []) := by
    refine splitFirst_no_sep fun c hc => ?_
    rcases List.mem_append.mp hc with hc1 | hc2
    · exact (hpath1 c hc1).1
    · rcases hqt with rfl | ⟨qp, rfl, hqp⟩
      · exact absurd hc2 (by simp)
      · rcases List.mem_cons.mp hc2 with rfl | hc3
        · decide
        · exact (hqp c hc3).1
  have hqs : splitFirst '?' (path ++ qtail) = (path, qtail.drop 1) := by
    rcases hqt with rfl | ⟨qp, rfl, hqp⟩
    · rw [List.append_nil]
      rw [splitFirst_no_sep fun c hc => (hpath1 c hc).2.1]
      rfl
    · rw [splitFirst_marker fun c hc => (hpath1 c hc).2.1]
      rfl
  have hpath' : (if lowerL s ∈ uses_params ∧ (path.any (· = ';')) = true
      then (_splitparams path).1 else path) = path := by
    by_cases hC : lowerL s ∈ uses_params ∧ (path.any (· = ';')) = true
    · rw [if_pos hC]
      rcases hparams with hL | hR
      · exact absurd hC.1 hL
      · exact splitparams_id hpath0 hR
    · rw [if_neg hC]
  simp only [urlparse, hurl0, hsp, hnp, hfs, hqs]
  rw [if_neg (by simp [hbr])]
  rw [hpath']

/-! ### Facts recoverable from a successful parse -/

theorem mem_dropWhile_mem {p : Char → Bool} {l : List Char} {c : Char}
    (h : c ∈ l.dropWhile p) : c ∈ l := by
  induction l with
  | nil => simpa [List.dropWhile] using h
  | cons a as ih =>
    rw [List.dropWhile_cons] at h
    by_cases ha : p a = true
    · rw [if_pos ha] at h
      simp [ih h]
    · rw [if_neg ha] at h
      exact h

theorem splitScheme_cases (url : List Char) :
    (splitScheme url).1 = [] ∨
    ((splitScheme url).1 ≠ [] ∧ (∀ c ∈ (splitScheme url).1, scheme_char c = true) ∧
     ((splitScheme url).1.headD 'a').isAlpha = true ∧
     lowerL (splitScheme url).1 = (splitScheme url).1) := by
  simp only [splitScheme]
  split
  · rename_i hcond
    obtain ⟨h1, h2, h3, h4⟩ := hcond
    right
    rw [List.all_eq_true] at h4
    refine ⟨?_, ?_, ?_, lowerL_lowerL _⟩
    · intro hnil
      rw [lowerL, List.map_eq_nil] at hnil
      exact h2 hnil
    · intro c hc
      rcases List.mem_map.mp hc with ⟨c2, hc2, rfl⟩
      exact char_toLower_scheme_char (h4 c2 hc2)
    · cases hpre : url.takeWhile (· ≠ ':') with
      | nil => exact absurd hpre h2
      | cons c pre2 =>
        show (Char.toLower c).isAlpha = true
        rw [hpre] at h3
        exact char_toLower_isAlpha (by simpa using h3)
  · exact Or.inl rfl

theorem splitScheme_snd_subset (url : List Char) :
    ∀ c ∈ (splitScheme url).2, c ∈ url := by
  simp only [splitScheme]
  split
  · intro c hc
    exact List.drop_subset _ _ hc
  · intro c hc
    exact hc

theorem splitNetloc_facts (r : List Char) :
    (∀ c ∈ (splitNetloc r).1, netlocEnd c = false) ∧
    (∀ c ∈ (splitNetloc r).1, c ∈ r) ∧ (∀ c ∈ (splitNetloc r).2, c ∈ r) ∧
    ((splitNetloc r).1 ≠ [] →
      ((splitNetloc r).2 = [] ∨
       ∃ d t, (splitNetloc r).2 = d :: t ∧ netlocEnd d = true)) := by
  rw [splitNetloc.eq_def]
  split
  · rename_i rr
    refine ⟨?_, ?_, ?_, fun _ => ?_⟩
    · intro c hc
      have := mem_takeWhile_pred hc
      simpa using this
    · intro c hc
      simp [mem_takeWhile_mem hc]
    · intro c hc
      simp [mem_dropWhile_mem hc]
    · rcases dropWhile_shape (p := fun c => !netlocEnd c) rr with h | ⟨d, t, h, hd⟩
      · exact Or.inl h
      · exact Or.inr ⟨d, t, h, by simpa using hd⟩
  · exact ⟨by simp, by simp, fun c hc => hc, fun h => absurd rfl h⟩

theorem splitparams_subset_any {url : List Char} :
    ∀ c ∈ (_splitparams url).1, c ∈ url := by
  simp only [_splitparams]
  split
  · split
    · intro c hc
      rcases List.mem_append.mp hc with hc1 | hc2
      · exact List.take_subset _ _ hc1
      · exact List.mem_reverse.mp
          (mem_takeWhile_mem (List.mem_reverse.mp (mem_takeWhile_mem hc2)))
    · intro c hc
      exact hc
  · intro c hc
    exact mem_takeWhile_mem hc

theorem any_eq_any_lowerL (l : List Char) (d : Char)
    (hd : d.toNat < 65 ∨ (90 < d.toNat ∧ d.toNat < 97) ∨ 122 < d.toNat) :
    (lowerL l).any (· = d) = l.any (· = d) := by
  rw [lowerL, List.any_map]
  exact congrArg _ (funext fun c => decide_eq_decide.mpr (char_toLower_eq_iff d hd))

/-- Unpack a successful `urlparse` into its component equations plus the
bracket check. -/
theorem urlparse_components {ul : List Char} {p : UrlParts}
    (hp : urlparse ul = some p) :
    p.scheme = (splitScheme ((ul.dropWhile c0OrSpace).filter (fun c => !tabCrLf c))).1 ∧
    p.netloc =
      (splitNetloc (splitScheme ((ul.dropWhile c0OrSpace).filter (fun c => !tabCrLf c))).2).1 ∧
    ((p.netloc.any (· = '[') && !p.netloc.any (· = ']')) ||
     (p.netloc.any (· = ']') && !p.netloc.any (· = '['))) = false ∧
    p.query =
      (splitFirst '?'
        (splitFirst '#'
          (splitNetloc (splitScheme ((ul.dropWhile c0OrSpace).filter
            (fun c => !tabCrLf c))).2).2).1).2 ∧
    p.path =
      (if p.scheme ∈ uses_params ∧
          (((splitFirst '?'
            (splitFirst '#'
              (splitNetloc (splitScheme ((ul.dropWhile c0OrSpace).filter
                (fun c => !tabCrLf c))).2).2).1).1).any (· = ';')) = true
       then (_splitparams ((splitFirst '?'
            (splitFirst '#'
              (splitNetloc (splitScheme ((ul.dropWhile c0OrSpace).filter
                (fun c => !tabCrLf c))).2).2).1).1)).1
       else ((splitFirst '?'
            (splitFirst '#'
              (splitNetloc (splitScheme ((ul.dropWhile c0OrSpace).filter
                (fun c => !tabCrLf c))).2).2).1).1)) := by
  simp only [urlparse] at hp
  split at hp
  · exact absurd hp (by simp)
  · rename_i hbrF
    have h2 := Option.some.inj hp
    rcases p with ⟨ps, pn, pp, pq, pf⟩
    rw [UrlParts.mk.injEq] at h2
    obtain ⟨hs, hn, hpa, hq, hf⟩ := h2
    subst hs
    subst hn
    subst hpa
    subst hq
    refine ⟨rfl, rfl, ?_, rfl, rfl⟩
    simpa using hbrF

theorem plainName_facts {k : List Char} (h : plainName k = true) :
    ∀ c ∈ k, c ≠ '&' ∧ c ≠ '=' ∧ c ≠ '%' ∧ c ≠ '+' ∧ c ≠ '#' ∧ tabCrLf c = false := by
  rw [plainName, List.all_eq_true] at h
  intro c hc
  have h2 := h c hc
  simp only [Bool.not_eq_true', Bool.or_eq_false_iff, decide_eq_false_iff_not] at h2
  obtain ⟨⟨⟨⟨⟨⟨⟨ha, hb⟩, hc2⟩, hd⟩, he⟩, hf⟩, hg⟩, hh⟩ := h2
  refine ⟨ha, hb, hc2, hd, he, ?_⟩
  simp [tabCrLf, hf, hg, hh]

/-- Normalizing a parameterless reassembled key returns it unchanged. -/
theorem normalize_key_noquery (s host path : List Char)
    (hs1 : s ≠ [])
    (hs2 : ∀ c ∈ s, scheme_char c = true)
    (hs3 : (s.headD 'a').isAlpha = true)
    (hls : lowerL s = s)
    (hhost1 : ∀ c ∈ host, netlocEnd c = false)
    (hhost2 : ∀ c ∈ host, tabCrLf c = false)
    (hlh : lowerL host = host)
    (hbr : ((host.any (· = '[') && !host.any (· = ']')) ||
            (host.any (· = ']') && !host.any (· = '['))) = false)
    (hpath0 : path.headD ' ' = '/')
    (hpath1 : ∀ c ∈ path, c ≠ '#' ∧ c ≠ '?' ∧ tabCrLf c = false)
    (hparams : ¬(lowerL s ∈ uses_params) ∨
       ∀ c ∈ path.reverse.takeWhile (· ≠ '/'), c ≠ ';') :
    normalize_url_for_dedupe ⟨s ++ "://".data ++ host ++ path⟩ =
      ⟨s ++ "://".data ++ host ++ path⟩ := by
  have hpne : path ≠ [] := by
    intro h
    rw [h] at hpath0
    exact absurd hpath0 (by decide)
  have hre := urlparse_reassembled s host path [] hs1 hs2 hs3 hhost1 hhost2 hbr
    hpath0 hpath1 (Or.inl rfl) hparams
  rw [List.append_nil] at hre
  simp only [normalize_url_for_dedupe, hre]
  rw [hls, hlh, if_neg hs1, if_neg hpne]
  rw [if_pos (show pyDedup (((parse_qsl (List.drop 1 ([] : List Char))).map
    fun kv => lowerL kv.1).filter fun k => !isTrackingName k) = [] from rfl)]
  rw [hls]

/-- Normalizing a reassembled key with a canonical parameter part returns
it unchanged. -/
theorem normalize_key_query (s host path : List Char) (names : List (List Char))
    (hs1 : s ≠ [])
    (hs2 : ∀ c ∈ s, scheme_char c = true)
    (hs3 : (s.headD 'a').isAlpha = true)
    (hls : lowerL s = s)
    (hhost1 : ∀ c ∈ host, netlocEnd c = false)
    (hhost2 : ∀ c ∈ host, tabCrLf c = false)
    (hlh : lowerL host = host)
    (hbr : ((host.any (· = '[') && !host.any (· = ']')) ||
            (host.any (· = ']') && !host.any (· = '['))) = false)
    (hpath0 : path.headD ' ' = '/')
    (hpath1 : ∀ c ∈ path, c ≠ '#' ∧ c ≠ '?' ∧ tabCrLf c = false)
    (hparams : ¬(lowerL s ∈ uses_params) ∨
       ∀ c ∈ path.reverse.takeWhile (· ≠ '/'), c ≠ ';')
    (hnne : names ≠ [])
    (hplain : ∀ n ∈ names, plainName n = true)
    (hlow : ∀ n ∈ names, lowerL n = n)
    (htrack : ∀ n ∈ names, isTrackingName n = false)
    (hnd : names.Nodup)
    (hsorted : names.Pairwise (fun a b => lexLe a b = true)) :
    normalize_url_for_dedupe
      ⟨s ++ "://".data ++ host ++ path ++ "?".data ++ joinAmp names⟩ =
      ⟨s ++ "://".data ++ host ++ path ++ "?".data ++ joinAmp names⟩ := by
  have hpne : path ≠ [] := by
    intro h
    rw [h] at hpath0
    exact absurd hpath0 (by decide)
  have hqp : ∀ c ∈ joinAmp names, c ≠ '#' ∧ tabCrLf c = false := by
    intro c hc
    rcases joinAmp_mem hc with ⟨k, hk, hck⟩ | h | h
    · have h2 := plainName_facts (hplain k hk) c hck
      exact ⟨h2.2.2.2.2.1, h2.2.2.2.2.2⟩
    · subst h
      exact ⟨by decide, by decide⟩
    · subst h
      exact ⟨by decide, by decide⟩
  have hre := urlparse_reassembled s host path ('?' :: joinAmp names) hs1 hs2 hs3
    hhost1 hhost2 hbr hpath0 hpath1 (Or.inr ⟨joinAmp names, rfl, hqp⟩) hparams
  have hassoc : s ++ "://".data ++ host ++ path ++ "?".data ++ joinAmp names =
      s ++ "://".data ++ host ++ path ++ ('?' :: joinAmp names) := by
    simp [List.append_assoc]
  rw [show ('?' :: joinAmp names).drop 1 = joinAmp names from rfl] at hre
  have hqsl := parse_qsl_joinAmp hnne hplain
  have hkeys : ((names.map fun k => (k, ([] : List Char))).map
      fun kv => lowerL kv.1) = names := by
    rw [List.map_map]
    have h3 : names.map (fun k => lowerL k) = names.map id :=
      List.map_congr_left fun k hk => hlow k hk
    have h4 : (fun kv => lowerL kv.1) ∘ (fun k => (k, ([] : List Char))) =
        fun k => lowerL k := rfl
    rw [h4, h3, List.map_id]
  have hfilt : names.filter (fun k => !isTrackingName k) = names :=
    List.filter_eq_self.mpr fun k hk => by simp [htrack k hk]
  have hdedup : pyDedup names = names := pyDedup_eq_self hnd
  have hsort : sortNames names = names := sortNames_eq_self hsorted
  rw [hassoc]
  simp only [normalize_url_for_dedupe, hre]
  rw [hqsl, hkeys, hfilt, hdedup]
  rw [hls, hlh, if_neg hs1, if_neg hpne, if_neg hnne, hsort, hls]
  simp [List.append_assoc]

/-- C3, amended: `normalize_url_for_dedupe` is idempotent on every URL
that parses with a nonempty host and whose surviving parameter names
contain none of `& = % + #` or tab/CR/LF. -/
theorem normalize_idempotent_on_hosted_plain (u : String)
    (h1 : parsesWithHost u = true)
    (h2 : ∀ n ∈ keptNames u, plainName n = true) :
    normalize_url_for_dedupe (normalize_url_for_dedupe u) =
      normalize_url_for_dedupe u := by
  cases hup : urlparse u.data with
  | none =>
    simp only [parsesWithHost, hup] at h1
    exact absurd h1 (by decide)
  | some p =>
    simp only [parsesWithHost, hup] at h1
    have hnet : p.netloc ≠ [] := by
      intro h
      rw [h] at h1
      simp at h1
    obtain ⟨hcs, hcn, hcbr, hcq, hcp⟩ := urlparse_components hup
    set url0 := (u.data.dropWhile c0OrSpace).filter (fun c => !tabCrLf c) with hu0
    -- scheme facts
    have hsfact :
        lowerL (if p.scheme = [] then "http".data else p.scheme) ≠ [] ∧
        (∀ c ∈ lowerL (if p.scheme = [] then "http".data else p.scheme),
          scheme_char c = true) ∧
        ((lowerL (if p.scheme = [] then "http".data else p.scheme)).headD 'a').isAlpha
          = true ∧
        lowerL (lowerL (if p.scheme = [] then "http".data else p.scheme)) =
          lowerL (if p.scheme = [] then "http".data else p.scheme) ∧
        (lowerL (lowerL (if p.scheme = [] then "http".data else p.scheme)) ∈ uses_params
          ↔ p.scheme ∈ uses_params) := by
      by_cases hps : p.scheme = []
      · rw [if_pos hps, hps]
        refine ⟨by decide, by decide, by decide, by decide, ?_⟩
        exact iff_of_true (by decide) (by decide)
      · rw [if_neg hps]
        rcases splitScheme_cases url0 with h0 | ⟨ha, hb, hc3, hd⟩
        · rw [← hcs] at h0
          exact absurd h0 hps
        · rw [← hcs] at ha hb hc3 hd
          rw [hd]
          exact ⟨ha, hb, hc3, hd, by rw [hd]⟩
    obtain ⟨hs1, hs2, hs3, hls, hsiff⟩ := hsfact
    -- host facts
    have hnf := splitNetloc_facts (splitScheme url0).2
    have hhost1 : ∀ c ∈ lowerL p.netloc, netlocEnd c = false := by
      intro c hc
      rcases List.mem_map.mp hc with ⟨c2, hc2, rfl⟩
      rw [char_toLower_netlocEnd]
      exact hnf.1 c2 (hcn ▸ hc2)
    have hurl0tab : ∀ c ∈ url0, tabCrLf c = false := by
      intro c hc
      have h3 := List.of_mem_filter hc
      simpa using h3
    have hhost2 : ∀ c ∈ lowerL p.netloc, tabCrLf c = false := by
      intro c hc
      rcases List.mem_map.mp hc with ⟨c2, hc2, rfl⟩
      rw [char_toLower_tabCrLf]
      exact hurl0tab c2 (splitScheme_snd_subset url0 c2 (hnf.2.1 c2 (hcn ▸ hc2)))
    have hlh : lowerL (lowerL p.netloc) = lowerL p.netloc := lowerL_lowerL _
    have hbr2 : (((lowerL p.netloc).any (· = '[') && !(lowerL p.netloc).any (· = ']')) ||
        ((lowerL p.netloc).any (· = ']') && !(lowerL p.netloc).any (· = '['))) = false := by
      rw [any_eq_any_lowerL _ '[' (by decide), any_eq_any_lowerL _ ']' (by decide)]
      exact hcbr
    -- path facts
    have hfs1eq : (splitFirst '#' (splitNetloc (splitScheme url0).2).2).1 =
        (splitNetloc (splitScheme url0).2).2.takeWhile (· ≠ '#') := rfl
    have hqs1eq : (splitFirst '?'
        (splitFirst '#' (splitNetloc (splitScheme url0).2).2).1).1 =
        ((splitNetloc (splitScheme url0).2).2.takeWhile (· ≠ '#')).takeWhile (· ≠ '?') := rfl
    have hq1 : ∀ c ∈ (splitFirst '?'
        (splitFirst '#' (splitNetloc (splitScheme url0).2).2).1).1,
        c ≠ '#' ∧ c ≠ '?' ∧ tabCrLf c = false := by
      intro c hc
      rw [hqs1eq] at hc
      have h5 : c ≠ '?' := by simpa using mem_takeWhile_pred hc
      have hc2 := mem_takeWhile_mem hc
      have h6 : c ≠ '#' := by simpa using mem_takeWhile_pred hc2
      have hc3 := mem_takeWhile_mem hc2
      exact ⟨h6, h5, hurl0tab c (splitScheme_snd_subset url0 c (hnf.2.2.1 c hc3))⟩
    have hq1shape : (splitFirst '?'
        (splitFirst '#' (splitNetloc (splitScheme url0).2).2).1).1 = [] ∨
        ((splitFirst '?'
          (splitFirst '#' (splitNetloc (splitScheme url0).2).2).1).1).headD ' ' = '/' := by
      rcases hnf.2.2.2 (by rw [← hcn]; exact hnet) with hnil | ⟨d, t, hdt, hd⟩
      · left
        rw [hqs1eq, hnil]
        rfl
      · have hd3 : d = '/' ∨ d = '?' ∨ d = '#' := by
          rw [netlocEnd] at hd
          simpa [or_assoc] using hd
        rcases hd3 with rfl | rfl | rfl
        · right
          rw [hqs1eq, hdt, List.takeWhile_cons, if_pos (by decide),
            List.takeWhile_cons, if_pos (by decide)]
          rfl
        · left
          rw [hqs1eq, hdt, List.takeWhile_cons, if_pos (by decide),
            List.takeWhile_cons, if_neg (by decide)]
        · left
          rw [hqs1eq, hdt, List.takeWhile_cons, if_neg (by decide)]
          rfl
    have hpmem : ∀ c ∈ p.path, c ≠ '#' ∧ c ≠ '?' ∧ tabCrLf c = false := by
      rw [hcp]
      by_cases hC : (p.scheme ∈ uses_params ∧
          (((splitFirst '?'
            (splitFirst '#' (splitNetloc (splitScheme url0).2).2).1).1).any (· = ';'))
            = true)
      · rw [if_pos hC]
        intro c hc
        exact hq1 c (splitparams_subset_any c hc)
      · rw [if_neg hC]
        exact hq1
    have hpshape : p.path = [] ∨ p.path.headD ' ' = '/' := by
      rw [hcp]
      by_cases hC : (p.scheme ∈ uses_params ∧
          (((splitFirst '?'
            (splitFirst '#' (splitNetloc (splitScheme url0).2).2).1).1).any (· = ';'))
            = true)
      · rw [if_pos hC]
        right
        rcases hq1shape with h | h
        · rw [h] at hC
          simp at hC
        · exact splitparams_headD h
      · rw [if_neg hC]
        exact hq1shape
    have hplast : p.scheme ∈ uses_params →
        ∀ c ∈ p.path.reverse.takeWhile (· ≠ '/'), c ≠ ';' := by
      intro hin
      rw [hcp]
      by_cases hany : ((((splitFirst '?'
          (splitFirst '#' (splitNetloc (splitScheme url0).2).2).1).1).any (· = ';'))
          = true)
      · rw [if_pos ⟨hin, hany⟩]
        rcases hq1shape with h | h
        · rw [h] at hany
          simp at hany
        · exact splitparams_noSemiLast h
      · have hnosemi : ∀ c ∈ (splitFirst '?'
            (splitFirst '#' (splitNetloc (splitScheme url0).2).2).1).1, c ≠ ';' := by
          intro c hc heq
          exact hany (List.any_eq_true.mpr ⟨c, hc, by simp [heq]⟩)
        rw [if_neg (fun h3 => hany h3.2)]
        intro c hc
        exact hnosemi c (List.mem_reverse.mp (mem_takeWhile_mem hc))
    -- final path hypotheses
    have hpath0 : ((if p.path = [] then "/".data else p.path)).headD ' ' = '/' := by
      by_cases hpp : p.path = []
      · rw [if_pos hpp]
        decide
      · rw [if_neg hpp]
        rcases hpshape with h | h
        · exact absurd h hpp
        · exact h
    have hpath1 : ∀ c ∈ (if p.path = [] then "/".data else p.path),
        c ≠ '#' ∧ c ≠ '?' ∧ tabCrLf c = false := by
      by_cases hpp : p.path = []
      · rw [if_pos hpp]
        intro c hc
        rw [show c = '/' from by simpa using hc]
        exact ⟨by decide, by decide, by decide⟩
      · rw [if_neg hpp]
        exact hpmem
    have hparams2 : ¬(lowerL (lowerL (if p.scheme = [] then "http".data
          else p.scheme)) ∈ uses_params) ∨
        ∀ c ∈ (if p.path = [] then "/".data else p.path).reverse.takeWhile
          (· ≠ '/'), c ≠ ';' := by
      by_cases hin : lowerL (lowerL (if p.scheme = [] then "http".data
          else p.scheme)) ∈ uses_params
      · right
        have hin2 : p.scheme ∈ uses_params := hsiff.mp hin
        by_cases hpp : p.path = []
        · rw [if_pos hpp]
          intro c hc
          rw [show (("/".data : List Char).reverse.takeWhile (· ≠ '/')) = []
            from by decide] at hc
          exact absurd hc (by simp)
        · rw [if_neg hpp]
          exact hplast hin2
      · exact Or.inl hin
    -- the surviving names
    have h2' : ∀ n ∈ pyDedup (((parse_qsl p.query).map fun kv => lowerL kv.1).filter
        fun k => !isTrackingName k), plainName n = true := by
      intro n hn
      apply h2
      simp only [keptNames, hup]
      exact hn
    have hnmem : ∀ n ∈ sortNames (pyDedup (((parse_qsl p.query).map
        fun kv => lowerL kv.1).filter fun k => !isTrackingName k)),
        n ∈ pyDedup (((parse_qsl p.query).map fun kv => lowerL kv.1).filter
          fun k => !isTrackingName k) :=
      fun n hn => (sortNames_perm _).mem_iff.mp hn
    by_cases hseen : pyDedup (((parse_qsl p.query).map fun kv => lowerL kv.1).filter
        fun k => !isTrackingName k) = []
    · have hkey : normalize_url_for_dedupe u =
          ⟨lowerL (if p.scheme = [] then "http".data else p.scheme) ++ "://".data ++
           lowerL p.netloc ++ (if p.path = [] then "/".data else p.path)⟩ := by
        simp only [normalize_url_for_dedupe, hup]
        rw [if_pos hseen]
      rw [hkey]
      exact normalize_key_noquery _ _ _ hs1 hs2 hs3 hls hhost1 hhost2 hlh hbr2
        hpath0 hpath1 hparams2
    · have hkey : normalize_url_for_dedupe u =
          ⟨lowerL (if p.scheme = [] then "http".data else p.scheme) ++ "://".data ++
           lowerL p.netloc ++ (if p.path = [] then "/".data else p.path) ++
           "?".data ++ joinAmp (sortNames (pyDedup (((parse_qsl p.query).map
             fun kv => lowerL kv.1).filter fun k => !isTrackingName k)))⟩ := by
        simp only [normalize_url_for_dedupe, hup]
        rw [if_neg hseen]
      have hnne : sortNames (pyDedup (((parse_qsl p.query).map
          fun kv => lowerL kv.1).filter fun k => !isTrackingName k)) ≠ [] := by
        intro h
        have hperm := sortNames_perm (pyDedup (((parse_qsl p.query).map
          fun kv => lowerL kv.1).filter fun k => !isTrackingName k))
        rw [h] at hperm
        exact hseen (List.Perm.eq_nil hperm.symm)
      rw [hkey]
      refine normalize_key_query _ _ _ _ hs1 hs2 hs3 hls hhost1 hhost2 hlh hbr2
        hpath0 hpath1 hparams2 hnne
        (fun n hn => h2' n (hnmem n hn)) ?_ ?_ ?_ (sortNames_pairwise _)
      · intro n hn
        have h3 := pyDedup_subset (hnmem n hn)
        have h4 := List.mem_of_mem_filter h3
        rcases List.mem_map.mp h4 with ⟨kv, _, rfl⟩
        exact lowerL_lowerL _
      · intro n hn
        have h3 := pyDedup_subset (hnmem n hn)
        have h5 := List.of_mem_filter h3
        simpa using h5
      · exact ((sortNames_perm _).nodup_iff).mpr (pyDedup_nodup _)

/-- Witness for the amended C3 theorem at a concrete URL. -/
theorem normalize_idempotent_witness :
    parsesWithHost "https://example.com/page?b=2&a=1#frag" = true ∧
    (∀ n ∈ keptNames "https://example.com/page?b=2&a=1#frag", plainName n = true) ∧
    normalize_url_for_dedupe (normalize_url_for_dedupe
      "https://example.com/page?b=2&a=1#frag") =
      normalize_url_for_dedupe "https://example.com/page?b=2&a=1#frag" :=
  ⟨by decide, by decide,
    normalize_idempotent_on_hosted_plain _ (by decide) (by decide)⟩

end Dorky
